import Mathlib

/-!
# CopyTemplate: one-way synchronisation of template images

A shallow embedding of `src/CopyTemplate/copy_template.go` (`main`, its walk
callback, `ensureDir`, `copyFile`, `waitForKeypress`) together with a small
model of the Go standard-library and operating-system calls the program makes
(`strings.ToLower`, `filepath.Ext`, `filepath.Base`, `filepath.Join`,
`regexp.MatchString`, `os.Stat`, `os.Remove`, `os.MkdirAll`, `os.Open`,
`os.Create`, `io.Copy`, `File.Sync`, `filepath.Walk`).

Conventions of the model:
* a path is a `String` of runes; the separator is `/` (Unix build of
  `path/filepath`);
* the file system maps path strings to nodes; paths are taken as the program
  forms them, and there are no symbolic links, so `Lstat` and `Stat` agree;
* the failures the operating system may report are given by an environment
  `Env`; whether a path resolves depends on the file system at the time of the
  call, so the failures of `Stat`, `Create` and `Mkdir` are functions of the
  file system and the path. `Faults` are the environments whose failures depend
  on the path alone (permissions, I/O errors); `resolution` is the environment
  in which a call fails exactly when a parent of its path is missing or is no
  directory;
* `filepath.Walk` is given the names below the root in the order in which it
  reaches them, and visits a name when an entry is there at that moment;
* console output is a list of structured messages, one per `Printf`/`Println`.
-/

namespace CopyTemplate

/-! ## Strings: `strings.ToLower`, `filepath.Ext`, `filepath.Base` -/

/-- Go `unicode.ToLower` as far as a comparison with an ASCII string can observe
it: `A`..`Z` go to `a`..`z`; the only two runes outside ASCII whose lower case
is inside ASCII are U+0130 (to `i`) and U+212A (to `k`); every other rune
outside ASCII is mapped by Go to a rune outside ASCII and is left in place
here. -/
def unicodeToLower (c : Char) : Char :=
  if 65 ≤ c.toNat ∧ c.toNat ≤ 90 then Char.ofNat (c.toNat + 32)
  else if c.toNat = 0x130 then 'i'
  else if c.toNat = 0x212A then 'k'
  else c

/-- Go `strings.ToLower`: maps every rune of the string. -/
def ToLower (s : String) : String := String.mk (s.toList.map unicodeToLower)

/-- Backwards scan of `filepath.Ext`: the first argument is what is still to be
scanned (reversed), the second the suffix scanned so far. -/
def extScan : List Char → List Char → List Char
  | [], _ => []
  | c :: rest, acc =>
    if c = '/' then [] else if c = '.' then c :: acc else extScan rest (c :: acc)

/-- Go `filepath.Ext`: the suffix beginning at the final dot of the final
element of the path, empty when that element has no dot. -/
def Ext (path : String) : String := String.mk (extScan path.toList.reverse [])

/-- Go `filepath.Base` (Unix): the last element of the path, trailing slashes
removed first; `.` for the empty path and `/` for a path of slashes only. -/
def Base (path : String) : String :=
  if path.toList = [] then "."
  else
    let stripped := path.toList.reverse.dropWhile (fun c => c = '/')
    let last := (stripped.takeWhile (fun c => c ≠ '/')).reverse
    if last = [] then "/" else String.mk last

/-! ## Regular expressions: `regexp.MustCompile`, `MatchString` -/

/-- The fragment of RE2 syntax the program uses. -/
inductive Regex where
  | beginText : Regex
  | endText : Regex
  | lit (c : Char) : Regex
  | digit : Regex
  | cat (r₁ r₂ : Regex) : Regex
  | rep (r : Regex) (n : Nat) : Regex

/-- A position in the subject string: how many runes lie before it and which
runes are still ahead. -/
structure Cursor where
  pos : Nat
  rest : List Char
  deriving DecidableEq

/-- Runs `f` exactly `n` times, threading every cursor it can reach. -/
def iterRun (f : Cursor → List Cursor) : Nat → Cursor → List Cursor
  | 0, c => [c]
  | n + 1, c => (f c).flatMap (iterRun f n)

/-- Consumes one rune satisfying the test. -/
def stepIf (test : Char → Bool) (c : Cursor) : List Cursor :=
  match c.rest with
  | x :: xs => if test x then [⟨c.pos + 1, xs⟩] else []
  | [] => []

/-- All cursors at which a match of the expression started at the given cursor
can end. `\d` is the ASCII class `[0-9]`. -/
def Regex.run : Regex → Cursor → List Cursor
  | .beginText => fun c => if c.pos = 0 then [c] else []
  | .endText => fun c => if c.rest = [] then [c] else []
  | .lit a => stepIf (fun x => x = a)
  | .digit => stepIf Char.isDigit
  | .cat r₁ r₂ => fun c => (r₁.run c).flatMap r₂.run
  | .rep r n => iterRun r.run n

/-- All cursors of a string, leftmost first. -/
def cursorsFrom : Nat → List Char → List Cursor
  | i, [] => [⟨i, []⟩]
  | i, x :: xs => ⟨i, x :: xs⟩ :: cursorsFrom (i + 1) xs

/-- Go `(*Regexp).MatchString`: whether the string contains any match of the
expression. -/
def Regex.MatchString (re : Regex) (s : String) : Bool :=
  (cursorsFrom 0 s.toList).any (fun c => !(re.run c).isEmpty)

/-- Concatenation of a list of expressions. -/
def Regex.seq : List Regex → Regex
  | [] => .rep .digit 0
  | [r] => r
  | r :: rs => .cat r (Regex.seq rs)

/-- The compiled pattern of line 38: `^tpl\d{13}\.png$`. -/
def tplPattern : Regex :=
  Regex.seq [.beginText, .lit 't', .lit 'p', .lit 'l', .rep .digit 13,
    .lit '.', .lit 'p', .lit 'n', .lit 'g', .endText]

/-! ## Classification (lines 52 and 56) -/

/-- The three ways the callback treats a regular file. -/
inductive Classification where
  | Ignored
  | Ephemeral
  | Candidate
  deriving DecidableEq

/-- The two tests of the callback, in the order the source performs them: the
lower-cased extension of the path against `.png` (line 52), then the pattern
against the base name (line 56). -/
def classify (path : String) : Classification :=
  if ToLower (Ext path) = ".png" then
    if tplPattern.MatchString (Base path) then .Ephemeral else .Candidate
  else .Ignored

/-! ## Paths: `filepath.Clean`, `filepath.Join` -/

/-- Splits a path at every `/`. -/
def splitSlash : List Char → List (List Char)
  | [] => [[]]
  | c :: cs =>
    if c = '/' then [] :: splitSlash cs
    else
      match splitSlash cs with
      | [] => [[c]]
      | h :: t => (c :: h) :: t

/-- Puts `/` between the elements. -/
def joinSlash : List (List Char) → List Char
  | [] => []
  | [x] => x
  | x :: y :: rest => x ++ '/' :: joinSlash (y :: rest)

/-- One element of the path against the elements kept so far (innermost
first): empty and `.` elements vanish, `..` removes the element before it, and
stays only at the start of a path that is not rooted. -/
def cleanStep (rooted : Bool) (kept : List (List Char)) (elem : List Char) :
    List (List Char) :=
  if elem = [] ∨ elem = ['.'] then kept
  else if elem = ['.', '.'] then
    match kept with
    | top :: below => if top = ['.', '.'] then elem :: kept else below
    | [] => if rooted then [] else [elem]
  else elem :: kept

/-- Go `filepath.Clean` (Unix): the shortest path equivalent to the argument by
purely lexical processing. -/
def Clean (path : String) : String :=
  if path.toList = [] then "."
  else
    let rooted : Bool := path.toList.head? = some '/'
    let kept := (splitSlash path.toList).foldl (cleanStep rooted) []
    let out := (if rooted then ['/'] else []) ++ joinSlash kept.reverse
    if out = [] then "." else String.mk out

/-- Go `filepath.Join` for two elements: empty elements are ignored, the rest
joined with `/` and cleaned. -/
def Join (a b : String) : String :=
  if a.toList ≠ [] then Clean (String.mk (a.toList ++ '/' :: b.toList))
  else if b.toList ≠ [] then Clean b
  else ""

/-! ## The file system and the operating-system calls -/

/-- What a path can name: a regular file with its bytes, or a directory. -/
inductive Node where
  | file (content : List Nat)
  | dir
  deriving DecidableEq

/-- The file system: which node, if any, each path names. -/
abbrev FileSystem := String → Option Node

/-- Rebinds one path. -/
def FileSystem.set (fs : FileSystem) (name : String) (n : Option Node) : FileSystem :=
  fun q => if q = name then n else fs q

/-- The error numbers the model distinguishes. -/
inductive Errno where
  | ENOENT
  | EACCES
  | EIOERR
  | EISDIR
  | ENOTDIR
  deriving DecidableEq

/-- The failures the environment may impose on the calls of the program.
Whether a path resolves depends on the file system at the time of the call
(each of its parents must be a directory), so the error of `Stat`/`Lstat`, of
`Create` and of `Mkdir` is a function of the file system and the path; where
it is `none` the call goes by what the path names. `readDirDenied` makes
listing a directory fail, `removeDenied` and `openDenied` make the respective
call fail, `copyBroken src dst` is the number of bytes `io.Copy` writes before
a read or write error, and `syncBroken` makes the flush fail. -/
structure Env where
  statErr : FileSystem → String → Option Errno
  readDirDenied : String → Bool
  removeDenied : String → Bool
  openDenied : String → Bool
  createErr : FileSystem → String → Option Errno
  mkdirErr : FileSystem → String → Option Errno
  copyBroken : String → String → Option Nat
  syncBroken : String → Bool

/-- Failures that are a function of the path alone (a permission that is
missing, a device that fails): `statDenied` makes `Stat`/`Lstat` fail with an
error other than "not exist", `createDenied` and `mkdirDenied` make the
respective call fail, the other fields are those of `Env`. Such an environment
does not look at the parents of a path: a call that is not denied goes by what
the file system binds the path to. -/
structure Faults where
  statDenied : String → Bool
  readDirDenied : String → Bool
  removeDenied : String → Bool
  openDenied : String → Bool
  createDenied : String → Bool
  mkdirDenied : String → Bool
  copyBroken : String → String → Option Nat
  syncBroken : String → Bool

/-- The environment given by failures of the path alone: a denied call is
reported as `EACCES`, whatever the file system holds. -/
def Faults.toEnv (k : Faults) : Env where
  statErr := fun _ name => if k.statDenied name then some .EACCES else none
  readDirDenied := k.readDirDenied
  removeDenied := k.removeDenied
  openDenied := k.openDenied
  createErr := fun _ name => if k.createDenied name then some .EACCES else none
  mkdirErr := fun _ name => if k.mkdirDenied name then some .EACCES else none
  copyBroken := k.copyBroken
  syncBroken := k.syncBroken

instance : Coe Faults Env := ⟨Faults.toEnv⟩

/-- The path-only environment in which no call is denied. -/
def noFaults : Faults where
  statDenied := fun _ => false
  readDirDenied := fun _ => false
  removeDenied := fun _ => false
  openDenied := fun _ => false
  createDenied := fun _ => false
  mkdirDenied := fun _ => false
  copyBroken := fun _ _ => none
  syncBroken := fun _ => false

/-- The proper ancestors of a path, outermost first: what stands before each
separator that is followed by a further element. The first argument is the part
already scanned, reversed. -/
def ancestorsFrom : List Char → List Char → List (List Char)
  | _, [] => []
  | acc, c :: cs =>
    if c = '/' ∧ acc ≠ [] ∧ acc.head? ≠ some '/' ∧ cs.any (fun x => x ≠ '/') then
      acc.reverse :: ancestorsFrom (c :: acc) cs
    else ancestorsFrom (c :: acc) cs

/-- How the resolution of a path fails in a file system: the outermost proper
ancestor that is no directory decides, `ENOTDIR` when it is a regular file,
`ENOENT` when it is missing. -/
def resolveErr (fs : FileSystem) (path : String) : Option Errno :=
  ((ancestorsFrom [] path.toList).map String.mk).findSome? fun a =>
    match fs a with
    | some .dir => none
    | some (.file _) => some .ENOTDIR
    | none => some .ENOENT

/-- The environment of a process with every permission on a sound device:
nothing is denied, and `Stat`, `Create` and `Mkdir` fail when the path does not
resolve, that is when a parent of it is missing or is no directory. -/
def resolution : Env where
  statErr := resolveErr
  readDirDenied := fun _ => false
  removeDenied := fun _ => false
  openDenied := fun _ => false
  createErr := resolveErr
  mkdirErr := resolveErr
  copyBroken := fun _ _ => none
  syncBroken := fun _ => false

/-- Go `os.Stat` (and `os.Lstat`: the model has no symbolic links): the error
of the environment when the path does not resolve or may not be searched, else
what the path names. -/
def os.Stat (env : Env) (fs : FileSystem) (name : String) : Except Errno Node :=
  match env.statErr fs name with
  | some err => .error err
  | none =>
    match fs name with
    | none => .error .ENOENT
    | some n => .ok n

/-- Go `os.IsNotExist` on an error that is present. -/
def os.IsNotExist (e : Errno) : Bool := e = .ENOENT

/-- Go `os.Remove`: unlinks the entry. A directory that is not empty is a path
with `removeDenied`. -/
def os.Remove (env : Env) (fs : FileSystem) (name : String) : FileSystem × Option Errno :=
  if env.removeDenied name then (fs, some .EACCES)
  else
    match fs name with
    | none => (fs, some .ENOENT)
    | some _ => (fs.set name none, none)

/-- Makes one directory of the chain `MkdirAll` walks down: nothing to do when
it is there, an error when a file is in the way or the name is empty. -/
def mkdirOne (env : Env) (fs : FileSystem) (name : String) : FileSystem × Option Errno :=
  match fs name with
  | some .dir => (fs, none)
  | some (.file _) => (fs, some .ENOTDIR)
  | none =>
    if name = "" then (fs, some .ENOENT)
    else
      match env.mkdirErr fs name with
      | some err => (fs, some err)
      | none => (fs.set name (some .dir), none)

/-- Makes the directories of the list in turn, stopping at the first error. -/
def mkdirChain (env : Env) : FileSystem → List String → FileSystem × Option Errno
  | fs, [] => (fs, none)
  | fs, d :: ds =>
    match mkdirOne env fs d with
    | (fs₁, some err) => (fs₁, some err)
    | (fs₁, none) => mkdirChain env fs₁ ds

/-- Go `os.MkdirAll`: creates the directory along with any missing parents;
no error when the directory is already there. -/
def os.MkdirAll (env : Env) (fs : FileSystem) (path : String) : FileSystem × Option Errno :=
  mkdirChain env fs ((ancestorsFrom [] path.toList).map String.mk ++ [path])

/-- Go `os.Open`: the file must be there and readable. -/
def os.Open (env : Env) (fs : FileSystem) (name : String) : Except Errno Unit :=
  if env.openDenied name then .error .EACCES
  else
    match fs name with
    | none => .error .ENOENT
    | some _ => .ok ()

/-- Go `os.Create`: the error of the environment when the parent of the path is
missing, is no directory or may not be written; else the file is created empty,
or the file that is there is truncated. -/
def os.Create (env : Env) (fs : FileSystem) (name : String) : FileSystem × Option Errno :=
  match env.createErr fs name with
  | some err => (fs, some err)
  | none =>
    match fs name with
    | some .dir => (fs, some .EISDIR)
    | _ => (fs.set name (some (.file [])), none)

/-- Go `io.Copy` from the open source to the open destination: all bytes of the
source, or only the first ones when the transfer breaks. -/
def io.Copy (env : Env) (fs : FileSystem) (dst src : String) : FileSystem × Option Errno :=
  match fs src with
  | some (.file bytes) =>
    match env.copyBroken src dst with
    | some n => (fs.set dst (some (.file (bytes.take n))), some .EIOERR)
    | none => (fs.set dst (some (.file bytes)), none)
  | _ => (fs, some .EISDIR)

/-- Go `(*File).Sync` on the destination. -/
def File.Sync (env : Env) (name : String) : Option Errno :=
  if env.syncBroken name then some .EIOERR else none

/-! ## The program -/

/-- One line of console output, by the `Printf` that writes it. -/
inductive Msg where
  /-- `Failed to create templates directory: %v` (line 28). -/
  | failedCreateDir (err : Errno)
  /-- `Failed to delete %s: %v` (line 58). -/
  | failedDelete (path : String) (err : Errno)
  /-- `Deleted: %s` (line 60). -/
  | deleted (path : String)
  /-- `Failed to copy %s to %s: %v` (line 69). -/
  | failedCopy (path templatePath : String) (err : Errno)
  /-- `Copied: %s to %s` (line 71). -/
  | copied (path templatePath : String)
  /-- `Error traversing directory: %v` (line 82). -/
  | errorTraversing (err : Errno)
  /-- `Operation completed: %d files deleted, %d files copied` (line 85). -/
  | completed (deletedCount copiedCount : Nat)
  /-- `Press Enter to exit...` (line 121). -/
  | pressEnter
  deriving DecidableEq

/-- What a run changes: the file system, the console, and the two counters of
lines 34 and 35 (Go `int`; a count of files never reaches its range limit). -/
structure Run where
  fs : FileSystem
  out : List Msg
  deletedCount : Nat
  copiedCount : Nat

/-- The part of `os.FileInfo` the callback reads. -/
structure FileInfo where
  IsDir : Bool
  deriving DecidableEq

/-- The function `copyFile` (lines 98 to 117). -/
def copyFile (env : Env) (fs : FileSystem) (src dst : String) : FileSystem × Option Errno :=
  match os.Open env fs src with
  | .error e => (fs, some e)
  | .ok _ =>
    match os.Create env fs dst with
    | (fs₁, some e) => (fs₁, some e)
    | (fs₁, none) =>
      match io.Copy env fs₁ dst src with
      | (fs₂, some e) => (fs₂, some e)
      | (fs₂, none) => (fs₂, File.Sync env dst)

/-- The function `ensureDir` (lines 90 to 95). -/
def ensureDir (env : Env) (fs : FileSystem) (dirPath : String) : FileSystem × Option Errno :=
  match os.Stat env fs dirPath with
  | .error e => if os.IsNotExist e then os.MkdirAll env fs dirPath else (fs, none)
  | .ok _ => (fs, none)

/-- The function `waitForKeypress` (lines 120 to 124): the prompt; the line
read from standard input is discarded. -/
def waitForKeypress (out : List Msg) : List Msg := out ++ [.pressEnter]

/-- The callback handed to `filepath.Walk` (lines 41 to 79). When the walk
reports an error, Go passes a nil `info`, which the callback does not read. -/
def walkFn (env : Env) (templatesDir : String) (s : Run) (path : String) (info : FileInfo)
    (err : Option Errno) : Run × Option Errno :=
  match err with
  | some e => (s, some e)
  | none =>
    if info.IsDir then (s, none)
    else if ToLower (Ext path) = ".png" then
      let filename := Base path
      if tplPattern.MatchString filename then
        match os.Remove env s.fs path with
        | (_, some e) => ({ s with out := s.out ++ [.failedDelete path e] }, none)
        | (fs₁, none) =>
          ({ s with fs := fs₁, out := s.out ++ [.deleted path],
                    deletedCount := s.deletedCount + 1 }, none)
      else
        let templatePath := Join templatesDir filename
        match os.Stat env s.fs templatePath with
        | .error e =>
          if os.IsNotExist e then
            match copyFile env s.fs path templatePath with
            | (fs₁, some e₁) =>
              ({ s with fs := fs₁, out := s.out ++ [.failedCopy path templatePath e₁] }, none)
            | (fs₁, none) =>
              ({ s with fs := fs₁, out := s.out ++ [.copied path templatePath],
                        copiedCount := s.copiedCount + 1 }, none)
          else (s, none)
        | .ok _ => (s, none)
    else (s, none)

/-- What `filepath.Walk` does with one name: `Lstat`, then the callback, with
the error of listing the directory when the name is a directory. The second
component tells whether the walk goes on. -/
def walkOne (env : Env) (fn : Run → String → FileInfo → Option Errno → Run × Option Errno)
    (s : Run) (path : String) : Run × Option Errno :=
  match os.Stat env s.fs path with
  | .error e => fn s path ⟨false⟩ (some e)
  | .ok .dir => fn s path ⟨true⟩ (if env.readDirDenied path then some .EACCES else none)
  | .ok (.file _) => fn s path ⟨false⟩ none

/-- The descent of `filepath.Walk` below the root. `names` are the paths below
the root in the order in which the walk reaches them. The walk lists a
directory when it enters it, so it reaches a name only when an entry is there;
the model tests this when the name's turn comes. The walk ends at the first
error the callback returns (the callback of this program returns every error
it is handed, and never `SkipDir`). -/
def walkNames (env : Env) (fn : Run → String → FileInfo → Option Errno → Run × Option Errno) :
    List String → Run → Run × Option Errno
  | [], s => (s, none)
  | path :: rest, s =>
    match s.fs path with
    | none => walkNames env fn rest s
    | some _ =>
      match walkOne env fn s path with
      | (s₁, some e) => (s₁, some e)
      | (s₁, none) => walkNames env fn rest s₁

/-- Go `filepath.Walk`: the root first (a root that is missing is reported to
the callback as an error), then, when the root is a directory that can be
listed, the names below it. -/
def Walk (env : Env) (names : List String) (root : String)
    (fn : Run → String → FileInfo → Option Errno → Run × Option Errno) (s : Run) :
    Run × Option Errno :=
  match os.Stat env s.fs root with
  | .error e => fn s root ⟨false⟩ (some e)
  | .ok (.file _) => fn s root ⟨false⟩ none
  | .ok .dir =>
    if env.readDirDenied root then fn s root ⟨true⟩ (some .EACCES)
    else
      match fn s root ⟨true⟩ none with
      | (s₁, some e) => (s₁, some e)
      | (s₁, none) => walkNames env fn names s₁

/-- The function `main` (lines 14 to 87), the two flags being its arguments
`tasksDir` and `templatesDir`. When the bootstrap fails the counters are not
yet declared; the record then carries zeros. -/
def main (env : Env) (names : List String) (tasksDir templatesDir : String)
    (fs : FileSystem) : Run :=
  match ensureDir env fs templatesDir with
  | (fs₁, some e) => ⟨fs₁, waitForKeypress [.failedCreateDir e], 0, 0⟩
  | (fs₁, none) =>
    let (s, err) := Walk env names tasksDir (walkFn env templatesDir) ⟨fs₁, [], 0, 0⟩
    let out :=
      match err with
      | some e => s.out ++ [.errorTraversing e]
      | none => s.out
    { s with out := waitForKeypress (out ++ [.completed s.deletedCount s.copiedCount]) }

/-! ## Concrete worlds used to exercise the theorems -/

/-- The target holds `icon.png`; the source holds `c/icon.png` with other
bytes. -/
def fsIcon : FileSystem := fun p =>
  if p = "c" then some .dir
  else if p = "c/icon.png" then some (.file [1, 2, 3])
  else if p = "c/notes.txt" then some (.file [7, 7])
  else if p = "templates" then some .dir
  else if p = "templates/icon.png" then some (.file [9])
  else none

/-- The source holds `b/tpl123456789012.png`, whose name has twelve digits;
the target is empty. -/
def fsTwelve : FileSystem := fun p =>
  if p = "b" then some .dir
  else if p = "b/tpl123456789012.png" then some (.file [4, 5])
  else if p = "templates" then some .dir
  else none

/-- The scenario of the specification: the source tree holds
`a/tpl1234567890123.png` and `a/logo.png` (and a second image), the target is
there and empty. -/
def fsScenario : FileSystem := fun p =>
  if p = "tasks" then some .dir
  else if p = "tasks/a" then some .dir
  else if p = "tasks/a/logo.png" then some (.file [1, 2, 3])
  else if p = "tasks/a/tpl1234567890123.png" then some (.file [9])
  else if p = "tasks/a/zlogo.png" then some (.file [6])
  else if p = "templates" then some .dir
  else none

/-- An environment in which no file can be removed. -/
def kNoRemove : Faults := { noFaults with removeDenied := fun _ => true }

/-- An environment in which `tasks/a/tpl1234567890123.png` cannot be
examined. -/
def kNoStat : Faults :=
  { noFaults with statDenied := fun p => p = "tasks/a/tpl1234567890123.png" }

/-- The path `templates` names a regular file; the source holds one preview. -/
def fsBlocked : FileSystem := fun p =>
  if p = "tasks" then some .dir
  else if p = "tasks/tpl1234567890123.png" then some (.file [9])
  else if p = "templates" then some (.file [0])
  else none

/-- An environment in which no directory can be made. -/
def kNoMkdir : Faults := { noFaults with mkdirDenied := fun _ => true }

/-- The source holds one image; there is no target directory. -/
def fsNoTarget : FileSystem := fun p =>
  if p = "tasks" then some .dir
  else if p = "tasks/logo.png" then some (.file [1])
  else none

/-- Two logos of the same name in two directories of the source; the target
is there and empty. -/
def fsTwoLogos : FileSystem := fun p =>
  if p = "tasks" then some .dir
  else if p = "tasks/a" then some .dir
  else if p = "tasks/a/logo.png" then some (.file [1, 2, 3])
  else if p = "tasks/b" then some .dir
  else if p = "tasks/b/logo.png" then some (.file [4, 5])
  else if p = "templates" then some .dir
  else none

/-- An environment in which `tasks/a/logo.png` cannot be opened. -/
def kNoOpenA : Faults := { noFaults with openDenied := fun p => p = "tasks/a/logo.png" }

/-- The scenario of the specification for the counters: the source tree holds
`a/tpl1234567890123.png` and `a/logo.png`, the target is there and empty. -/
def fsSpec : FileSystem := fun p =>
  if p = "tasks" then some .dir
  else if p = "tasks/a" then some .dir
  else if p = "tasks/a/logo.png" then some (.file [1, 2, 3])
  else if p = "tasks/a/tpl1234567890123.png" then some (.file [9])
  else if p = "templates" then some .dir
  else none

/-- The names below `tasks` in `fsSpec`, in lexical order. -/
def namesSpec : List String :=
  ["tasks/a", "tasks/a/logo.png", "tasks/a/tpl1234567890123.png"]

/-- The target path `tasks/tpl1234567890123.png/sub` lies below a preview that
is a regular file, so there is no target directory and none can be made; the
source holds that preview and one image. -/
def fsBelowPreview : FileSystem := fun p =>
  if p = "tasks" then some .dir
  else if p = "tasks/tpl1234567890123.png" then some (.file [9])
  else if p = "tasks/zz.png" then some (.file [1, 2])
  else none

/-- The names the walk reaches below `tasks` in `fsBelowPreview` and in what a
run leaves of it, in lexical order. -/
def namesBelowPreview : List String :=
  ["tasks/tpl1234567890123.png", "tasks/tpl1234567890123.png/sub", "tasks/zz.png"]

/-- An environment in which the transfer from `tasks/a/logo.png` breaks after
one byte. -/
def kBrokenCopyA : Faults :=
  { noFaults with copyBroken := fun src _ => if src = "tasks/a/logo.png" then some 1 else none }

/-- The tree of `fsTwoLogos` without `tasks/a/logo.png`. -/
def fsOneLogo : FileSystem := fun p =>
  if p = "tasks" then some .dir
  else if p = "tasks/a" then some .dir
  else if p = "tasks/b" then some .dir
  else if p = "tasks/b/logo.png" then some (.file [4, 5])
  else if p = "templates" then some .dir
  else none

/-! ## The vocabulary of the specification -/

/-- The totals lines of a console output, as pairs of the two counts. -/
def totals (out : List Msg) : List (Nat × Nat) :=
  out.filterMap fun m =>
    match m with
    | .completed d c => some (d, c)
    | _ => none

/-- One name of the descent, as `walkNames` treats it with the callback of the
program: passed over when nothing is there, else handed to `walkOne`. -/
def stepName (k : Faults) (tgt : String) (s : Run) (p : String) : Run × Option Errno :=
  match s.fs p with
  | none => (s, none)
  | some _ => walkOne k (walkFn k tgt) s p

/-- A regular file whose class is Ephemeral. -/
def isEphemeralFile (fs : FileSystem) (p : String) : Bool :=
  match fs p with
  | some (.file _) => decide (classify p = .Ephemeral)
  | _ => false

/-- A regular file whose class is Candidate. -/
def isCandidateFile (fs : FileSystem) (p : String) : Bool :=
  match fs p with
  | some (.file _) => decide (classify p = .Candidate)
  | _ => false

/-- The Ephemeral files among the names. -/
def ephemeralFiles (fs : FileSystem) (names : List String) : List String :=
  names.filter (isEphemeralFile fs)

/-- The distinct file names of the Candidates among the names. -/
def candidateNames (fs : FileSystem) (names : List String) : List String :=
  ((names.filter (isCandidateFile fs)).map Base).dedup

/-- The distinct Candidate file names that have no entry in the target. -/
def newNames (fs : FileSystem) (tgt : String) (names : List String) : List String :=
  (candidateNames fs names).filter (fun n => decide (fs (Join tgt n) = none))

/-- The set of the file names `newNames` lists. -/
def newSet (fs : FileSystem) (tgt : String) (names : List String) : Finset String :=
  ((names.filter (isCandidateFile fs)).map Base).toFinset.filter
    (fun n => fs (Join tgt n) = none)

/-- The last element of a path given by its runes reversed. -/
def lastRev (r : List Char) : List Char := r.takeWhile (fun c => c ≠ '/')

/-- A file name proper: not empty, without separator, neither `.` nor `..`. -/
def SimpleName (n : List Char) : Prop :=
  n ≠ [] ∧ '/' ∉ n ∧ n ≠ ['.'] ∧ n ≠ ['.', '.']

/-- Two states that agree on the file system and the counters; the consoles
may differ. -/
def SameButOut (s t : Run) : Prop :=
  s.fs = t.fs ∧ s.deletedCount = t.deletedCount ∧ s.copiedCount = t.copiedCount

/-- The file name described by the specification: the literal `tpl`, exactly
thirteen decimal digits, the literal `.png`, and nothing else. -/
def IsTplName (name : String) : Prop :=
  ∃ ds : List Char, ds.length = 13 ∧ (∀ d ∈ ds, d.isDigit = true) ∧
    name.toList = ['t', 'p', 'l'] ++ ds ++ ['.', 'p', 'n', 'g']

/-- The extension is `.png` up to the case of its three letters, the
case-insensitive comparison of the specification. -/
def IsPngExt (ext : String) : Prop :=
  ∃ p n g : Char, ext.toList = ['.', p, n, g] ∧ (p = 'p' ∨ p = 'P') ∧
    (n = 'n' ∨ n = 'N') ∧ (g = 'g' ∨ g = 'G')

/-! ## Environments of path-only failures -/

@[simp] theorem toEnv_statErr (k : Faults) (fs : FileSystem) (name : String) :
    (Faults.toEnv k).statErr fs name = if k.statDenied name then some .EACCES else none := rfl

@[simp] theorem toEnv_createErr (k : Faults) (fs : FileSystem) (name : String) :
    (Faults.toEnv k).createErr fs name = if k.createDenied name then some .EACCES else none :=
  rfl

@[simp] theorem toEnv_mkdirErr (k : Faults) (fs : FileSystem) (name : String) :
    (Faults.toEnv k).mkdirErr fs name = if k.mkdirDenied name then some .EACCES else none := rfl

@[simp] theorem toEnv_readDirDenied (k : Faults) :
    (Faults.toEnv k).readDirDenied = k.readDirDenied := rfl

@[simp] theorem toEnv_removeDenied (k : Faults) :
    (Faults.toEnv k).removeDenied = k.removeDenied := rfl

@[simp] theorem toEnv_openDenied (k : Faults) : (Faults.toEnv k).openDenied = k.openDenied := rfl

@[simp] theorem toEnv_copyBroken (k : Faults) : (Faults.toEnv k).copyBroken = k.copyBroken := rfl

@[simp] theorem toEnv_syncBroken (k : Faults) : (Faults.toEnv k).syncBroken = k.syncBroken := rfl

/-- With failures of the path alone, `os.Stat` is denied or looks the path
up. -/
theorem stat_faults (k : Faults) (fs : FileSystem) (name : String) :
    os.Stat k fs name =
      if k.statDenied name then .error .EACCES
      else
        match fs name with
        | none => .error .ENOENT
        | some n => .ok n := by
  unfold os.Stat
  by_cases h : k.statDenied name = true <;> simp [h]

/-- With failures of the path alone, `os.Create` is denied, refuses a
directory, or binds the path to an empty file. -/
theorem create_faults (k : Faults) (fs : FileSystem) (name : String) :
    os.Create k fs name =
      if k.createDenied name then (fs, some .EACCES)
      else
        match fs name with
        | some .dir => (fs, some .EISDIR)
        | _ => (fs.set name (some (.file [])), none) := by
  unfold os.Create
  by_cases h : k.createDenied name = true <;> simp [h]

/-! ## The pattern and the extension test -/

theorem iterRun_digit (n : Nat) (c : Cursor) :
    iterRun (stepIf Char.isDigit) n c =
      if n ≤ c.rest.length ∧ ∀ d ∈ c.rest.take n, d.isDigit = true
      then [⟨c.pos + n, c.rest.drop n⟩] else [] := by
  induction n generalizing c with
  | zero => simp [iterRun]
  | succ n ih =>
    obtain ⟨p, rest⟩ := c
    cases rest with
    | nil => simp [iterRun, stepIf]
    | cons x xs =>
      by_cases hx : x.isDigit = true
      · simp [iterRun, stepIf, hx, ih, Nat.add_assoc, Nat.add_comm 1 n]
      · simp [iterRun, stepIf, hx]

theorem cursorsFrom_pos (i : Nat) (l : List Char) : ∀ c ∈ cursorsFrom i l, i ≤ c.pos := by
  induction l generalizing i with
  | nil => simp [cursorsFrom]
  | cons x xs ih =>
    intro c hc
    simp only [cursorsFrom, List.mem_cons] at hc
    rcases hc with rfl | hc
    · exact Nat.le_refl _
    · exact Nat.le_of_succ_le (ih _ c hc)

theorem matchString_tplPattern_run (l : List Char) :
    (cursorsFrom 0 l).any (fun c => !(tplPattern.run c).isEmpty) =
      !(tplPattern.run ⟨0, l⟩).isEmpty := by
  have h : ∀ i l, ∀ c ∈ cursorsFrom (i + 1) l, tplPattern.run c = [] := by
    intro i l c hc
    have := cursorsFrom_pos _ _ c hc
    have hne : c.pos ≠ 0 := by omega
    simp [tplPattern, Regex.seq, Regex.run, hne]
  cases l with
  | nil => simp [cursorsFrom]
  | cons x xs =>
    simp only [cursorsFrom, List.any_cons]
    have : (cursorsFrom (0 + 1) xs).any (fun c => !(tplPattern.run c).isEmpty) = false := by
      rw [List.any_eq_false]
      intro c hc
      simp [h 0 xs c hc]
    rw [this, Bool.or_false]

theorem tail_run_iff (c : Cursor) :
    (Regex.seq [.lit '.', .lit 'p', .lit 'n', .lit 'g', .endText]).run c ≠ [] ↔
      c.rest = ['.', 'p', 'n', 'g'] := by
  obtain ⟨p, rest⟩ := c
  rcases rest with _ | ⟨a, _ | ⟨b, _ | ⟨c, _ | ⟨d, _ | ⟨e, t⟩⟩⟩⟩⟩ <;>
    simp [Regex.seq, Regex.run, stepIf]

theorem tplPattern_run_iff (l : List Char) :
    (tplPattern.run ⟨0, l⟩) ≠ [] ↔
      ∃ ds : List Char, ds.length = 13 ∧ (∀ d ∈ ds, d.isDigit = true) ∧
        l = ['t', 'p', 'l'] ++ ds ++ ['.', 'p', 'n', 'g'] := by
  have key : ∀ rest : List Char,
      ((iterRun (stepIf Char.isDigit) 13 ⟨3, rest⟩).flatMap
        (Regex.seq [.lit '.', .lit 'p', .lit 'n', .lit 'g', .endText]).run) ≠ [] ↔
      ∃ ds : List Char, ds.length = 13 ∧ (∀ d ∈ ds, d.isDigit = true) ∧
        rest = ds ++ ['.', 'p', 'n', 'g'] := by
    intro rest
    rw [iterRun_digit]
    constructor
    · intro h
      split at h
      · rename_i hd
        simp only [List.flatMap_cons, List.flatMap_nil, List.append_nil] at h
        have ht := (tail_run_iff _).1 h
        simp only at ht
        refine ⟨rest.take 13, ?_, hd.2, ?_⟩
        · simp [List.length_take]; exact hd.1
        · rw [← ht, List.take_append_drop]
      · simp at h
    · rintro ⟨ds, hlen, hdig, rfl⟩
      have h1 : List.take 13 (ds ++ ['.', 'p', 'n', 'g']) = ds := by
        rw [← hlen, List.take_left']; rfl
      have h2 : List.drop 13 (ds ++ ['.', 'p', 'n', 'g']) = ['.', 'p', 'n', 'g'] := by
        rw [← hlen, List.drop_left']; rfl
      have hc : (13 ≤ (ds ++ ['.', 'p', 'n', 'g']).length ∧
          ∀ d ∈ List.take 13 (ds ++ ['.', 'p', 'n', 'g']), d.isDigit = true) := by
        rw [h1]; exact ⟨by simp [hlen], hdig⟩
      simp only at hc ⊢
      rw [if_pos hc]
      simp only [List.flatMap_cons, List.flatMap_nil, List.append_nil]
      exact (tail_run_iff _).2 h2
  rcases l with _ | ⟨a, _ | ⟨b, _ | ⟨c, rest⟩⟩⟩
  · simp [tplPattern, Regex.seq, Regex.run, stepIf]
  · simp [tplPattern, Regex.seq, Regex.run, stepIf]
  · simp [tplPattern, Regex.seq, Regex.run, stepIf]
  · by_cases h1 : a = 't'
    · by_cases h2 : b = 'p'
      · by_cases h3 : c = 'l'
        · subst h1 h2 h3
          have := key rest
          simp only [tplPattern, Regex.seq, Regex.run, stepIf, List.flatMap_cons,
            List.flatMap_nil, List.append_nil, if_true, decide_True] at this ⊢
          simpa using this
        · simp [tplPattern, Regex.seq, Regex.run, stepIf, h1, h2, h3]
      · simp [tplPattern, Regex.seq, Regex.run, stepIf, h1, h2]
    · simp [tplPattern, Regex.seq, Regex.run, stepIf, h1]

/-- The compiled pattern accepts exactly the names the specification describes. -/
theorem matchString_tplPattern (name : String) :
    tplPattern.MatchString name = true ↔ IsTplName name := by
  unfold Regex.MatchString IsTplName
  rw [matchString_tplPattern_run, ← tplPattern_run_iff]
  cases h : tplPattern.run ⟨0, name.toList⟩ <;> simp

theorem string_mk_inj (a b : List Char) : (String.mk a = String.mk b) = (a = b) := by
  apply propext
  constructor
  · intro h; exact congrArg String.data h
  · intro h; rw [h]

theorem char_eq_ofNat (c : Char) (k : Nat) (h : c.toNat = k) : c = Char.ofNat k := by
  rw [← h, Char.ofNat_toNat]

theorem unicodeToLower_upper (c : Char) (h : 65 ≤ c.toNat ∧ c.toNat ≤ 90) (t : Char) :
    unicodeToLower c = t ↔ c.toNat + 32 = t.toNat := by
  obtain ⟨h1, h2⟩ := h
  generalize hk : c.toNat = k at h1 h2
  have hc := char_eq_ofNat c k hk
  subst hc
  constructor
  · intro ht
    subst ht
    interval_cases k <;> rfl
  · intro ht
    have : t = Char.ofNat (k + 32) := char_eq_ofNat t _ ht.symm
    subst this
    interval_cases k <;> rfl

theorem char_eq_of_toNat_eq {c d : Char} (h : c.toNat = d.toNat) : c = d := by
  rw [← Char.ofNat_toNat c, ← Char.ofNat_toNat d, h]

theorem unicodeToLower_eq_letter (c t u : Char) (hu : 65 ≤ u.toNat ∧ u.toNat ≤ 90)
    (ht : t.toNat = u.toNat + 32) (hi : t ≠ 'i') (hk : t ≠ 'k') :
    unicodeToLower c = t ↔ c = t ∨ c = u := by
  by_cases hr : 65 ≤ c.toNat ∧ c.toNat ≤ 90
  · rw [unicodeToLower_upper c hr t]
    constructor
    · intro h
      exact Or.inr (char_eq_of_toNat_eq (by omega))
    · rintro (h | h)
      · subst h; omega
      · subst h; omega
  · have hcu : c ≠ u := by rintro rfl; exact hr hu
    unfold unicodeToLower
    rw [if_neg hr]
    by_cases h1 : c.toNat = 0x130
    · rw [if_pos h1]
      constructor
      · intro h; exact absurd h.symm hi
      · rintro (h | h)
        · subst h; omega
        · exact absurd h hcu
    · rw [if_neg h1]
      by_cases h2 : c.toNat = 0x212A
      · rw [if_pos h2]
        constructor
        · intro h; exact absurd h.symm hk
        · rintro (h | h)
          · subst h; omega
          · exact absurd h hcu
      · rw [if_neg h2]
        constructor
        · intro h; exact Or.inl h
        · rintro (h | h)
          · exact h
          · exact absurd h hcu

theorem unicodeToLower_eq_dot (c : Char) : unicodeToLower c = '.' ↔ c = '.' := by
  by_cases hr : 65 ≤ c.toNat ∧ c.toNat ≤ 90
  · rw [unicodeToLower_upper c hr]
    constructor
    · intro h
      have : ('.' : Char).toNat = 46 := rfl
      omega
    · rintro rfl
      have : ('.' : Char).toNat = 46 := rfl
      omega
  · unfold unicodeToLower
    rw [if_neg hr]
    by_cases h1 : c.toNat = 0x130
    · rw [if_pos h1]
      constructor
      · intro h; exact absurd h (by decide)
      · rintro rfl
        exact absurd h1 (by decide)
    · rw [if_neg h1]
      by_cases h2 : c.toNat = 0x212A
      · rw [if_pos h2]
        constructor
        · intro h; exact absurd h (by decide)
        · rintro rfl
          exact absurd h2 (by decide)
      · rw [if_neg h2]

/-- Lower-casing gives `.png` exactly for the eight spellings of `.png`. -/
theorem toLower_eq_png_iff (ext : String) : ToLower ext = ".png" ↔ IsPngExt ext := by
  have hp := fun c => unicodeToLower_eq_letter c 'p' 'P' (by decide) (by decide)
    (by decide) (by decide)
  have hn := fun c => unicodeToLower_eq_letter c 'n' 'N' (by decide) (by decide)
    (by decide) (by decide)
  have hg := fun c => unicodeToLower_eq_letter c 'g' 'G' (by decide) (by decide)
    (by decide) (by decide)
  unfold ToLower IsPngExt
  have e : (".png" : String) = String.mk ['.', 'p', 'n', 'g'] := rfl
  rw [e, string_mk_inj]
  rcases h : ext.toList with _ | ⟨a, _ | ⟨b, _ | ⟨c, _ | ⟨d, _ | ⟨e, t⟩⟩⟩⟩⟩ <;>
    simp [unicodeToLower_eq_dot, hp, hn, hg]
  constructor
  · rintro ⟨h1, h2, h3, h4⟩
    exact ⟨b, c, d, ⟨h1, rfl, rfl, rfl⟩, h2, h3, h4⟩
  · rintro ⟨p, n, g, ⟨h1, rfl, rfl, rfl⟩, h2, h3, h4⟩
    exact ⟨h1, h2, h3, h4⟩


/-! ## Paths: the last element -/

theorem lastRev_no_slash (r : List Char) : '/' ∉ lastRev r := by
  induction r with
  | nil => simp [lastRev]
  | cons c cs ih =>
    unfold lastRev at ih ⊢
    by_cases h : c = '/'
    · simp [List.takeWhile_cons, h]
    · simp only [List.takeWhile_cons, ne_eq, h, not_false_eq_true, decide_True, if_true,
        List.mem_cons, not_or]
      exact ⟨fun e => h e.symm, ih⟩

theorem extScan_append (a b acc : List Char) (h : '/' ∉ a) :
    extScan (a ++ b) acc = if '.' ∈ a then extScan a acc else extScan b (a.reverse ++ acc) := by
  induction a generalizing acc with
  | nil => simp
  | cons c cs ih =>
    have hc : c ≠ '/' := fun e => h (by simp [e])
    have hcs : '/' ∉ cs := fun e => h (by simp [e])
    by_cases hd : c = '.'
    · simp [extScan, hd]
    · have hd2 : ¬ '.' = c := fun e => hd e.symm
      have e : extScan (c :: cs ++ b) acc = extScan (cs ++ b) (c :: acc) := by
        simp [extScan, hc, hd]
      have e2 : extScan (c :: cs) acc = extScan cs (c :: acc) := by
        simp [extScan, hc, hd]
      rw [e, e2, ih _ hcs]
      simp [hd2]

theorem split_lastRev (r : List Char) :
    ∃ d, r = lastRev r ++ d ∧ (d = [] ∨ ∃ t, d = '/' :: t) := by
  induction r with
  | nil => exact ⟨[], by simp [lastRev]⟩
  | cons c cs ih =>
    by_cases h : c = '/'
    · exact ⟨c :: cs, by simp [lastRev, h], Or.inr ⟨cs, by rw [h]⟩⟩
    · obtain ⟨d, hd, hd2⟩ := ih
      refine ⟨d, ?_, hd2⟩
      simp only [lastRev, List.takeWhile_cons, ne_eq, h, not_false_eq_true, decide_True, if_true,
        List.cons_append, List.cons.injEq, true_and]
      exact hd

theorem extScan_lastRev (r : List Char) : extScan r [] = extScan (lastRev r) [] := by
  obtain ⟨d, hd, hd2⟩ := split_lastRev r
  have h1 := extScan_append (lastRev r) d [] (lastRev_no_slash r)
  have h2 := extScan_append (lastRev r) [] [] (lastRev_no_slash r)
  rw [← hd] at h1
  rw [List.append_nil] at h2
  by_cases hdot : '.' ∈ lastRev r
  · rw [if_pos hdot] at h1
    exact h1
  · rw [if_neg hdot] at h1 h2
    rw [h1, h2]
    rcases hd2 with rfl | ⟨t, rfl⟩
    · rfl
    · simp [extScan]

/-- The extension of a path is the extension of its last element. -/
theorem ext_lastElem (path : String) :
    Ext path = Ext (String.mk (lastRev path.toList.reverse).reverse) := by
  unfold Ext
  rw [extScan_lastRev]
  simp

/-- The base name of a path is its last element when that is not empty. -/
theorem base_lastElem (path : String) (h : lastRev path.toList.reverse ≠ []) :
    Base path = String.mk (lastRev path.toList.reverse).reverse := by
  unfold Base
  have hne : path.toList ≠ [] := by
    intro e
    rw [e] at h
    exact h rfl
  rw [if_neg hne]
  have hd : path.toList.reverse.dropWhile (fun c => decide (c = '/')) = path.toList.reverse := by
    cases hr : path.toList.reverse with
    | nil => rfl
    | cons c cs =>
      rw [hr] at h
      have hc : c ≠ '/' := by
        intro e
        apply h
        simp [lastRev, e]
      simp [List.dropWhile_cons, hc]
  simp only [hd]
  have h2 : (List.takeWhile (fun c => decide (c ≠ '/')) path.toList.reverse).reverse ≠ [] := by
    intro e
    apply h
    simpa [lastRev] using e
  rw [if_neg h2]
  rfl

theorem lastRev_append (a d : List Char) (h : '/' ∉ a) (hd : d = [] ∨ ∃ t, d = '/' :: t) :
    lastRev (a ++ d) = a := by
  induction a with
  | nil =>
    rcases hd with rfl | ⟨t, rfl⟩
    · rfl
    · simp [lastRev]
  | cons c cs ih =>
    have hc : c ≠ '/' := fun e => h (by simp [e])
    have hcs : '/' ∉ cs := fun e => h (by simp [e])
    have := ih hcs
    unfold lastRev at this ⊢
    simp only [List.cons_append, List.takeWhile_cons, ne_eq, hc, not_false_eq_true, decide_True,
      if_true, List.cons.injEq, true_and]
    exact this

theorem splitSlash_ne_nil (l : List Char) : splitSlash l ≠ [] := by
  cases l with
  | nil => simp [splitSlash]
  | cons c cs =>
    unfold splitSlash
    by_cases h : c = '/'
    · simp [h]
    · rw [if_neg h]
      cases splitSlash cs <;> simp

theorem splitSlash_of_no_slash (n : List Char) (h : '/' ∉ n) : splitSlash n = [n] := by
  induction n with
  | nil => rfl
  | cons c cs ih =>
    have hc : c ≠ '/' := fun e => h (by simp [e])
    have hcs : '/' ∉ cs := fun e => h (by simp [e])
    simp [splitSlash, hc, ih hcs]

theorem splitSlash_append (a b : List Char) :
    splitSlash (a ++ '/' :: b) = splitSlash a ++ splitSlash b := by
  induction a with
  | nil =>
    simp only [List.nil_append, splitSlash, if_true, List.singleton_append]
  | cons c cs ih =>
    by_cases hc : c = '/'
    · simp [splitSlash, hc, ih]
    · rw [List.cons_append]
      have e1 : ∀ l, splitSlash (c :: l) =
          match splitSlash l with
          | [] => [[c]]
          | h :: t => (c :: h) :: t := by
        intro l
        simp [splitSlash, hc]
      rw [e1, e1, ih]
      cases hs : splitSlash cs with
      | nil => exact absurd hs (splitSlash_ne_nil cs)
      | cons x xs => rfl

theorem cleanStep_simple (rooted : Bool) (kept : List (List Char)) (n : List Char)
    (h : SimpleName n) : cleanStep rooted kept n = n :: kept := by
  obtain ⟨h1, _, h3, h4⟩ := h
  simp [cleanStep, h1, h3, h4]

theorem joinSlash_snoc (ys : List (List Char)) (n : List Char) :
    joinSlash (ys ++ [n]) = if ys = [] then n else joinSlash ys ++ '/' :: n := by
  induction ys with
  | nil => rfl
  | cons y rest ih =>
    cases rest with
    | nil => simp [joinSlash]
    | cons z zs =>
      simp only [List.cons_append, joinSlash, reduceCtorEq, if_false, List.append_assoc,
        List.append_cancel_left_eq, List.cons.injEq, true_and] at ih ⊢
      exact ih

/-- Cleaning a path that ends in a proper file name keeps that name as its last
element: the result is a part that depends on what stands before the name, and
is empty or ends in a separator, followed by the name. -/
theorem clean_snoc (a : List Char) :
    ∃ P : List Char, (P = [] ∨ ∃ Q, P = Q ++ ['/']) ∧
      ∀ m, SimpleName m → (Clean (String.mk (a ++ '/' :: m))).toList = P ++ m := by
  have key : ∃ (R : Bool) (K : List (List Char)), ∀ m, SimpleName m →
      (Clean (String.mk (a ++ '/' :: m))).toList =
        (if R = true then ['/'] else []) ++
          (if K = [] then m else joinSlash K.reverse ++ '/' :: m) := by
    refine ⟨decide ((a ++ ['/']).head? = some '/'),
      List.foldl (cleanStep (decide ((a ++ ['/']).head? = some '/'))) [] (splitSlash a), ?_⟩
    intro m hm
    have hne : (a ++ '/' :: m) ≠ [] := by simp
    have hh : (a ++ '/' :: m).head? = (a ++ ['/']).head? := by
      cases a <;> simp
    have hs : splitSlash (a ++ '/' :: m) = splitSlash a ++ [m] := by
      rw [splitSlash_append, splitSlash_of_no_slash m hm.2.1]
    unfold Clean
    simp only [String.toList, hne, if_false, hh, hs, List.foldl_append, List.foldl_cons,
      List.foldl_nil, cleanStep_simple _ _ m hm, List.reverse_cons, joinSlash_snoc,
      List.reverse_eq_nil_iff]
    generalize (List.foldl (cleanStep (decide ((a ++ ['/']).head? = some '/'))) []
      (splitSlash a)) = K
    generalize (decide ((a ++ ['/']).head? = some '/')) = R
    have hbody : (if K = [] then m else joinSlash K.reverse ++ '/' :: m) ≠ [] := by
      split
      · exact hm.1
      · simp
    have hout : ((if R = true then ['/'] else []) ++
        (if K = [] then m else joinSlash K.reverse ++ '/' :: m)) ≠ [] := by
      intro e
      exact hbody (List.append_eq_nil.1 e).2
    rw [if_neg hout]
  obtain ⟨R, K, key⟩ := key
  by_cases hk : K = []
  · cases R
    · refine ⟨[], Or.inl rfl, ?_⟩
      intro m hm; rw [key m hm]; simp [hk]
    · refine ⟨['/'], Or.inr ⟨[], rfl⟩, ?_⟩
      intro m hm; rw [key m hm]; simp [hk]
  · refine ⟨(if R = true then ['/'] else []) ++ joinSlash K.reverse ++ ['/'], Or.inr ⟨_, rfl⟩,
      ?_⟩
    intro m hm; rw [key m hm]; simp [hk]

theorem clean_simple (m : List Char) (hm : SimpleName m) : (Clean (String.mk m)).toList = m := by
  have h1 : m.head? ≠ some '/' := by
    intro e
    apply hm.2.1
    cases m with
    | nil => simp at e
    | cons c cs =>
      simp only [List.head?_cons, Option.some.injEq] at e
      simp [e]
  unfold Clean
  simp only [String.toList, hm.1, if_false, h1, decide_False, splitSlash_of_no_slash m hm.2.1,
    List.foldl_cons, List.foldl_nil, cleanStep_simple _ _ m hm, List.reverse_cons,
    List.reverse_nil, List.nil_append, joinSlash, Bool.false_eq_true]

/-- Joining a directory and a proper file name gives a path that ends in that
name, after a part that depends on the directory only. -/
theorem join_simple (tgt : String) :
    ∃ P : List Char, (P = [] ∨ ∃ Q, P = Q ++ ['/']) ∧
      ∀ m, SimpleName m → (Join tgt (String.mk m)).toList = P ++ m := by
  by_cases ht : tgt.toList = []
  · refine ⟨[], Or.inl rfl, ?_⟩
    intro m hm
    have e : Join tgt (String.mk m) = Clean (String.mk m) := by
      unfold Join
      rw [if_neg (by simpa using ht), if_pos (by simpa using hm.1)]
    rw [e, List.nil_append]
    exact clean_simple m hm
  · obtain ⟨P, hP, h⟩ := clean_snoc tgt.toList
    refine ⟨P, hP, ?_⟩
    intro m hm
    unfold Join
    simp only [ne_eq, ht, not_false_eq_true, if_true]
    exact h m hm

theorem lastRev_snoc (P m : List Char) (hP : P = [] ∨ ∃ Q, P = Q ++ ['/']) (hm : '/' ∉ m) :
    lastRev (P ++ m).reverse = m.reverse := by
  rw [List.reverse_append]
  apply lastRev_append
  · simpa using hm
  · rcases hP with rfl | ⟨Q, rfl⟩
    · exact Or.inl rfl
    · exact Or.inr ⟨Q.reverse, by simp⟩

theorem join_inj (tgt : String) (m₁ m₂ : List Char) (h₁ : SimpleName m₁) (h₂ : SimpleName m₂)
    (h : Join tgt (String.mk m₁) = Join tgt (String.mk m₂)) : m₁ = m₂ := by
  obtain ⟨P, _, hj⟩ := join_simple tgt
  have e := congrArg String.toList h
  rw [hj m₁ h₁, hj m₂ h₂] at e
  exact List.append_cancel_left e

theorem base_join (tgt : String) (m : List Char) (hm : SimpleName m) :
    Base (Join tgt (String.mk m)) = String.mk m := by
  obtain ⟨P, hP, hj⟩ := join_simple tgt
  have hl : lastRev (Join tgt (String.mk m)).toList.reverse = m.reverse := by
    rw [hj m hm]
    exact lastRev_snoc P m hP hm.2.1
  rw [base_lastElem, hl, List.reverse_reverse]
  rw [hl]
  simpa using hm.1

theorem ext_join (tgt : String) (m : List Char) (hm : SimpleName m) :
    Ext (Join tgt (String.mk m)) = Ext (String.mk m) := by
  obtain ⟨P, hP, hj⟩ := join_simple tgt
  have hl : lastRev (Join tgt (String.mk m)).toList.reverse = m.reverse := by
    rw [hj m hm]
    exact lastRev_snoc P m hP hm.2.1
  rw [ext_lastElem, hl, List.reverse_reverse]

theorem extScan_length (r acc : List Char) : (extScan r acc).length ≤ r.length + acc.length := by
  induction r generalizing acc with
  | nil => simp [extScan]
  | cons c cs ih =>
    unfold extScan
    split
    · simp
    · split
      · simp; omega
      · have := ih (c :: acc)
        simp only [List.length_cons] at this ⊢
        omega

/-- The base name of a path with a `.png` extension (in any case) is a proper
file name, and carries the extension of the path. -/
theorem png_base (path : String) (h : ToLower (Ext path) = ".png") :
    SimpleName (Base path).toList ∧ Ext (Base path) = Ext path := by
  have hext := ext_lastElem path
  have hpng := (toLower_eq_png_iff _).1 h
  obtain ⟨p, n, g, hl, -⟩ := hpng
  have hlen : 4 ≤ (lastRev path.toList.reverse).length := by
    have := extScan_length (lastRev path.toList.reverse) []
    have e : (Ext path).toList = extScan (lastRev path.toList.reverse) [] := by
      rw [hext]; simp [Ext]
    rw [← e, hl] at this
    simpa using this
  have hne : lastRev path.toList.reverse ≠ [] := by
    intro e; rw [e] at hlen; simp at hlen
  have hb := base_lastElem path hne
  refine ⟨⟨?_, ?_, ?_, ?_⟩, ?_⟩
  · rw [hb]; simpa using hne
  · rw [hb]
    simpa using lastRev_no_slash path.toList.reverse
  · rw [hb]
    intro e
    have e2 : (lastRev path.toList.reverse).reverse = ['.'] := e
    have := congrArg List.length e2
    rw [List.length_reverse] at this
    simp only [List.length_singleton] at this
    omega
  · rw [hb]
    intro e
    have e2 : (lastRev path.toList.reverse).reverse = ['.', '.'] := e
    have := congrArg List.length e2
    rw [List.length_reverse] at this
    simp only [List.length_cons, List.length_nil] at this
    omega
  · rw [hb, ← hext]

/-- The destination of a candidate is itself a candidate, with the same base
name. -/
theorem classify_destination (tgt path : String) (h : classify path = .Candidate) :
    Base (Join tgt (Base path)) = Base path ∧
      classify (Join tgt (Base path)) = .Candidate := by
  have hpng : ToLower (Ext path) = ".png" := by
    unfold classify at h
    by_contra hc
    simp [hc] at h
  have hnot : tplPattern.MatchString (Base path) = false := by
    unfold classify at h
    rw [if_pos hpng] at h
    cases hm : tplPattern.MatchString (Base path)
    · rfl
    · simp [hm] at h
  obtain ⟨hs, he⟩ := png_base path hpng
  have hb : Base (Join tgt (Base path)) = Base path := base_join tgt _ hs
  have hx : Ext (Join tgt (Base path)) = Ext path := by
    rw [← he]; exact ext_join tgt _ hs
  refine ⟨hb, ?_⟩
  unfold classify
  rw [hx, if_pos hpng, hb, hnot]
  simp

/-! ## The callback, case by case -/

theorem walkFn_err (k : Faults) (tgt : String) (s : Run) (path : String) (info : FileInfo)
    (e : Errno) : walkFn k tgt s path info (some e) = (s, some e) := rfl

theorem walkFn_dir (k : Faults) (tgt : String) (s : Run) (path : String) :
    walkFn k tgt s path ⟨true⟩ none = (s, none) := rfl

theorem classify_ignored_iff (path : String) :
    classify path = .Ignored ↔ ToLower (Ext path) ≠ ".png" := by
  unfold classify
  by_cases h : ToLower (Ext path) = ".png"
  · rw [if_pos h]
    cases tplPattern.MatchString (Base path) <;> simp [h]
  · simp [h]

theorem classify_ephemeral_iff (path : String) :
    classify path = .Ephemeral ↔
      ToLower (Ext path) = ".png" ∧ tplPattern.MatchString (Base path) = true := by
  unfold classify
  by_cases h : ToLower (Ext path) = ".png"
  · rw [if_pos h]
    cases tplPattern.MatchString (Base path) <;> simp [h]
  · simp [h]

theorem classify_candidate_iff (path : String) :
    classify path = .Candidate ↔
      ToLower (Ext path) = ".png" ∧ tplPattern.MatchString (Base path) = false := by
  unfold classify
  by_cases h : ToLower (Ext path) = ".png"
  · rw [if_pos h]
    cases tplPattern.MatchString (Base path) <;> simp [h]
  · simp [h]

theorem walkFn_ignored (k : Faults) (tgt : String) (s : Run) (path : String) (info : FileInfo)
    (h : classify path = .Ignored) : walkFn k tgt s path info none = (s, none) := by
  have h1 := (classify_ignored_iff path).1 h
  unfold walkFn
  simp only [h1, if_false]
  split <;> rfl

theorem walkFn_ephemeral (k : Faults) (tgt : String) (s : Run) (path : String)
    (h : classify path = .Ephemeral) :
    walkFn k tgt s path ⟨false⟩ none =
      match os.Remove k s.fs path with
      | (_, some e) => ({ s with out := s.out ++ [.failedDelete path e] }, none)
      | (fs₁, none) =>
        ({ s with fs := fs₁, out := s.out ++ [.deleted path],
                  deletedCount := s.deletedCount + 1 }, none) := by
  obtain ⟨h1, h2⟩ := (classify_ephemeral_iff path).1 h
  unfold walkFn
  simp only [h1, h2, if_true, Bool.false_eq_true, if_false]

theorem walkFn_candidate (k : Faults) (tgt : String) (s : Run) (path : String)
    (h : classify path = .Candidate) :
    walkFn k tgt s path ⟨false⟩ none =
      match os.Stat k s.fs (Join tgt (Base path)) with
      | .error e =>
        if os.IsNotExist e then
          match copyFile k s.fs path (Join tgt (Base path)) with
          | (fs₁, some e₁) =>
            ({ s with fs := fs₁,
                      out := s.out ++ [.failedCopy path (Join tgt (Base path)) e₁] }, none)
          | (fs₁, none) =>
            ({ s with fs := fs₁, out := s.out ++ [.copied path (Join tgt (Base path))],
                      copiedCount := s.copiedCount + 1 }, none)
        else (s, none)
      | .ok _ => (s, none) := by
  obtain ⟨h1, h2⟩ := (classify_candidate_iff path).1 h
  unfold walkFn
  simp only [h1, h2, if_true, Bool.false_eq_true, if_false]

theorem stat_of_present (k : Faults) (fs : FileSystem) (name : String) (n : Node)
    (h : fs name = some n) :
    os.Stat k fs name = .ok n ∨ os.Stat k fs name = .error .EACCES := by
  unfold os.Stat
  by_cases hd : k.statDenied name = true
  · simp [hd]
  · simp [hd, h]

/-! ## C1: an entry of the target is never overwritten -/

theorem walkFn_skip_existing (k : Faults) (templatesDir : String) (s : Run) (path : String)
    (node : Node) (hcand : classify path = .Candidate)
    (hexists : s.fs (Join templatesDir (Base path)) = some node) :
    walkFn k templatesDir s path ⟨false⟩ none = (s, none) := by
  rw [walkFn_candidate k templatesDir s path hcand]
  rcases stat_of_present k s.fs _ _ hexists with h2 | h2
  · rw [h2]
  · rw [h2]
    simp [os.IsNotExist]

/-- C1 (no overwrite). When the walk processes a regular `.png` file whose name
does not match the pattern and an entry of any kind is already present at
`Join templatesDir (Base path)`, the whole state is left as it was: the entry of
the target keeps its bytes, the source file is untouched, and `copiedCount`
and `deletedCount` do not move. Nothing relates the bytes of the source to
those of the target. -/
theorem no_overwrite (k : Faults) (templatesDir : String) (s : Run) (path : String)
    (bytes : List Nat) (node : Node)
    (hfile : s.fs path = some (.file bytes))
    (hcand : classify path = .Candidate)
    (hexists : s.fs (Join templatesDir (Base path)) = some node) :
    (walkOne k (walkFn k templatesDir) s path).1 = s := by
  unfold walkOne
  rcases stat_of_present k s.fs path _ hfile with h | h
  · rw [h]
    simp only
    rw [walkFn_candidate k templatesDir s path hcand]
    rcases stat_of_present k s.fs _ _ hexists with h2 | h2
    · rw [h2]
    · rw [h2]
      simp [os.IsNotExist]
  · rw [h]
    rfl

/-- C1, the scenario of the specification: the target holds `icon.png`, the
source holds `c/icon.png` with other bytes. -/
theorem no_overwrite_witness :
    fsIcon "c/icon.png" = some (.file [1, 2, 3]) ∧
    classify "c/icon.png" = .Candidate ∧
    fsIcon (Join "templates" (Base "c/icon.png")) = some (.file [9]) ∧
    (walkOne noFaults (walkFn noFaults "templates") ⟨fsIcon, [], 0, 0⟩ "c/icon.png").1 =
      ⟨fsIcon, [], 0, 0⟩ :=
  ⟨by decide, by decide, by decide,
    no_overwrite noFaults "templates" ⟨fsIcon, [], 0, 0⟩ "c/icon.png" [1, 2, 3] (.file [9])
      (by decide) (by decide) (by decide)⟩

/-! ## C2: the pattern decides between deletion and promotion -/

theorem remove_other (k : Faults) (fs : FileSystem) (name q : String) (h : q ≠ name) :
    (os.Remove k fs name).1 q = fs q := by
  unfold os.Remove
  split
  · rfl
  · split
    · rfl
    · simp [FileSystem.set, h]

theorem copyFile_ok (k : Faults) (fs : FileSystem) (src dst : String) (bytes : List Nat)
    (hsrc : fs src = some (.file bytes)) (hdst : fs dst = none)
    (ho : k.openDenied src = false) (hc : k.createDenied dst = false)
    (hb : k.copyBroken src dst = none) (hs : k.syncBroken dst = false) :
    copyFile k fs src dst = (fs.set dst (some (.file bytes)), none) := by
  have hne : src ≠ dst := by
    intro e; rw [e, hdst] at hsrc; exact absurd hsrc (by simp)
  have h1 : (fs.set dst (some (.file []))) src = some (.file bytes) := by
    simp [FileSystem.set, hne, hsrc]
  have h2 : (fs.set dst (some (.file []))).set dst (some (.file bytes)) =
      fs.set dst (some (.file bytes)) := by
    funext q
    by_cases hq : q = dst <;> simp [FileSystem.set, hq]
  simp [copyFile, os.Open, os.Create, io.Copy, File.Sync, ho, hc, hb, hs, hsrc, hdst, h1, h2]

theorem create_other (k : Faults) (fs : FileSystem) (dst q : String) (h : q ≠ dst) :
    (os.Create k fs dst).1 q = fs q := by
  unfold os.Create
  split
  · rfl
  · split
    · rfl
    · simp [FileSystem.set, h]

theorem ioCopy_other (k : Faults) (fs : FileSystem) (dst src q : String) (h : q ≠ dst) :
    (io.Copy k fs dst src).1 q = fs q := by
  unfold io.Copy
  split
  · split <;> simp [FileSystem.set, h]
  · rfl

theorem copyFile_other (k : Faults) (fs : FileSystem) (src dst q : String) (h : q ≠ dst) :
    (copyFile k fs src dst).1 q = fs q := by
  unfold copyFile
  cases os.Open k fs src with
  | error e => rfl
  | ok u =>
    simp only
    have h1 := create_other k fs dst q h
    rcases hc : os.Create k fs dst with ⟨fs₁, _ | e⟩
    · rw [hc] at h1
      simp only at h1 ⊢
      have h2 := ioCopy_other k fs₁ dst src q h
      rcases hi : io.Copy k fs₁ dst src with ⟨fs₂, _ | e⟩
      · rw [hi] at h2
        simp only at h2 ⊢
        rw [h2, h1]
      · rw [hi] at h2
        simp only at h2 ⊢
        rw [h2, h1]
    · rw [hc] at h1
      exact h1

/-- C2 (classification of `.png` files). For a path whose extension is `.png`
in any letter case, naming a regular file: the class is Ephemeral exactly when
the base name is `tpl`, thirteen decimal digits, `.png`, and Candidate exactly
when it is not. An Ephemeral file goes to `os.Remove` and nowhere else: no
other path changes, `copiedCount` stays, and unless the removal fails the file
is gone and `deletedCount` grows by one. A Candidate is never removed and
`deletedCount` stays; when nothing is at its destination and no call fails it
is copied there with all its bytes and `copiedCount` grows by one. The name
`tpl123456789012.png`, one digit short, is a Candidate. -/
theorem png_classified_by_pattern (k : Faults) (templatesDir : String) (s : Run)
    (path : String) (bytes : List Nat)
    (hpng : IsPngExt (Ext path)) (hfile : s.fs path = some (.file bytes)) :
    (classify path = .Ephemeral ↔ IsTplName (Base path)) ∧
    (classify path = .Candidate ↔ ¬ IsTplName (Base path)) ∧
    (classify path = .Ephemeral →
      (walkFn k templatesDir s path ⟨false⟩ none).1.copiedCount = s.copiedCount ∧
      (∀ q, q ≠ path → (walkFn k templatesDir s path ⟨false⟩ none).1.fs q = s.fs q) ∧
      (k.removeDenied path = false →
        (walkFn k templatesDir s path ⟨false⟩ none).1.fs path = none ∧
        (walkFn k templatesDir s path ⟨false⟩ none).1.deletedCount = s.deletedCount + 1)) ∧
    (classify path = .Candidate →
      (walkFn k templatesDir s path ⟨false⟩ none).1.deletedCount = s.deletedCount ∧
      (walkFn k templatesDir s path ⟨false⟩ none).1.fs path = some (.file bytes) ∧
      (s.fs (Join templatesDir (Base path)) = none →
        k.statDenied (Join templatesDir (Base path)) = false →
        k.openDenied path = false → k.createDenied (Join templatesDir (Base path)) = false →
        k.copyBroken path (Join templatesDir (Base path)) = none →
        k.syncBroken (Join templatesDir (Base path)) = false →
        (walkFn k templatesDir s path ⟨false⟩ none).1.fs (Join templatesDir (Base path)) =
          some (.file bytes) ∧
        (walkFn k templatesDir s path ⟨false⟩ none).1.copiedCount = s.copiedCount + 1)) ∧
    classify "b/tpl123456789012.png" = .Candidate := by
  have hlow : ToLower (Ext path) = ".png" := (toLower_eq_png_iff _).2 hpng
  refine ⟨?_, ?_, ?_, ?_, by decide⟩
  · rw [classify_ephemeral_iff, ← matchString_tplPattern]
    simp [hlow]
  · rw [classify_candidate_iff, ← matchString_tplPattern]
    simp [hlow]
  · intro he
    rw [walkFn_ephemeral k templatesDir s path he]
    refine ⟨?_, ?_, ?_⟩
    · split <;> rfl
    · intro q hq
      have := remove_other k s.fs path q hq
      split
      · rfl
      · rename_i fs₁ heq
        rw [heq] at this
        exact this
    · intro hr
      simp [os.Remove, hr, hfile, FileSystem.set]
  · intro hc
    rw [walkFn_candidate k templatesDir s path hc]
    refine ⟨?_, ?_, ?_⟩
    · split
      · split
        · split <;> rfl
        · rfl
      · rfl
    · split
      · rename_i e hst
        split
        · rename_i hne
          have hd : path ≠ Join templatesDir (Base path) := by
            intro e2
            have : os.Stat k s.fs path = .error e := by rw [← e2] at hst; exact hst
            rcases stat_of_present k s.fs path _ hfile with h | h
            · rw [h] at this; cases this
            · rw [h] at this
              cases this
              simp [os.IsNotExist] at hne
          have := copyFile_other k s.fs path (Join templatesDir (Base path)) path hd
          split
          · rename_i heq
            rw [heq] at this
            simp only at this ⊢
            rw [this, hfile]
          · rename_i heq
            rw [heq] at this
            simp only at this ⊢
            rw [this, hfile]
        · exact hfile
      · exact hfile
    · intro hnone hst ho hcr hb hsy
      have h1 : os.Stat k s.fs (Join templatesDir (Base path)) = .error .ENOENT := by
        simp [os.Stat, hst, hnone]
      rw [h1]
      simp only [os.IsNotExist, decide_True, if_true]
      rw [copyFile_ok k s.fs path _ bytes hfile hnone ho hcr hb hsy]
      simp [FileSystem.set]

/-- C2 on the scenario of the specification: `b/tpl123456789012.png` is a
Candidate and is copied to the empty target, not deleted. -/
theorem png_classified_by_pattern_witness :
    IsPngExt (Ext "b/tpl123456789012.png") ∧
    fsTwelve "b/tpl123456789012.png" = some (.file [4, 5]) ∧
    classify "b/tpl123456789012.png" = .Candidate ∧
    (walkFn noFaults "templates" ⟨fsTwelve, [], 0, 0⟩ "b/tpl123456789012.png" ⟨false⟩
      none).1.fs "b/tpl123456789012.png" = some (.file [4, 5]) ∧
    (walkFn noFaults "templates" ⟨fsTwelve, [], 0, 0⟩ "b/tpl123456789012.png" ⟨false⟩
      none).1.fs (Join "templates" (Base "b/tpl123456789012.png")) = some (.file [4, 5]) :=
  have h := png_classified_by_pattern noFaults "templates" ⟨fsTwelve, [], 0, 0⟩
    "b/tpl123456789012.png" [4, 5] ((toLower_eq_png_iff _).1 (by decide)) (by decide)
  ⟨(toLower_eq_png_iff _).1 (by decide), by decide, h.2.2.2.2,
    (h.2.2.2.1 h.2.2.2.2).2.1,
    ((h.2.2.2.1 h.2.2.2.2).2.2 (by decide) rfl rfl rfl rfl rfl).1⟩

/-! ## C3: files that are not `.png` are left alone -/

/-- C3 (non-`.png` files). A path whose extension is not `.png` in any letter
case is Ignored; the callback returns the state it was given, whatever the
path names, and so does the step of the walk: nothing is deleted, nothing is
copied. Every path whose extension is `.png` in some letter case, `.PNG` and
`.Png` among them, is not Ignored. -/
theorem non_png_ignored (k : Faults) (templatesDir : String) (s : Run) (path : String)
    (info : FileInfo) (h : ¬ IsPngExt (Ext path)) :
    classify path = .Ignored ∧
    walkFn k templatesDir s path info none = (s, none) ∧
    (walkOne k (walkFn k templatesDir) s path).1 = s ∧
    (∀ q : String, IsPngExt (Ext q) → classify q ≠ .Ignored) ∧
    classify "x/A.PNG" ≠ .Ignored ∧ classify "x/a.Png" ≠ .Ignored := by
  have hlow : ToLower (Ext path) ≠ ".png" := fun e => h ((toLower_eq_png_iff _).1 e)
  have hi : classify path = .Ignored := (classify_ignored_iff path).2 hlow
  refine ⟨hi, walkFn_ignored k templatesDir s path info hi, ?_, ?_, by decide, by decide⟩
  · unfold walkOne
    split
    · rfl
    · split <;> rfl
    · rw [walkFn_ignored k templatesDir s path _ hi]
  · intro q hq hc
    exact (classify_ignored_iff q).1 hc ((toLower_eq_png_iff _).2 hq)

/-- C3 on a text file lying next to the images. -/
theorem non_png_ignored_witness :
    ¬ IsPngExt (Ext "c/notes.txt") ∧
    classify "c/notes.txt" = .Ignored ∧
    (walkOne noFaults (walkFn noFaults "templates") ⟨fsIcon, [], 0, 0⟩ "c/notes.txt").1 =
      ⟨fsIcon, [], 0, 0⟩ :=
  have hn : ¬ IsPngExt (Ext "c/notes.txt") :=
    fun e => absurd ((toLower_eq_png_iff _).2 e) (by decide)
  have h := non_png_ignored noFaults "templates" ⟨fsIcon, [], 0, 0⟩ "c/notes.txt" ⟨false⟩ hn
  ⟨hn, h.1, h.2.2.1⟩

/-! ## C7: a failure on one file does not end the walk -/

theorem set_set (fs : FileSystem) (p : String) (a b : Option Node) :
    (fs.set p a).set p b = fs.set p b := by
  funext q
  by_cases hq : q = p <;> simp [FileSystem.set, hq]

theorem copyFile_cases (k : Faults) (fs : FileSystem) (src dst : String) (b : List Nat)
    (hsrc : fs src = some (.file b)) (hdst : fs dst = none) :
    ((k.openDenied src = true ∨ k.createDenied dst = true) ∧
      ∃ e, copyFile k fs src dst = (fs, some e)) ∨
    (k.openDenied src = false ∧ k.createDenied dst = false ∧
      ∃ c e, copyFile k fs src dst = (fs.set dst (some (.file c)), e)) := by
  have hne : src ≠ dst := by
    intro e; rw [e, hdst] at hsrc; exact absurd hsrc (by simp)
  by_cases ho : k.openDenied src = true
  · exact Or.inl ⟨Or.inl ho, .EACCES, by simp [copyFile, os.Open, ho]⟩
  · by_cases hc : k.createDenied dst = true
    · exact Or.inl ⟨Or.inr hc, .EACCES, by simp [copyFile, os.Open, ho, hsrc, os.Create, hc]⟩
    · refine Or.inr ⟨by simpa using ho, by simpa using hc, ?_⟩
      have h1 : (fs.set dst (some (.file []))) src = some (.file b) := by
        simp [FileSystem.set, hne, hsrc]
      cases hb : k.copyBroken src dst with
      | some n =>
        exact ⟨b.take n, some .EIOERR, by
          simp [copyFile, os.Open, ho, hsrc, os.Create, hc, hdst, io.Copy, h1, hb, set_set]⟩
      | none =>
        exact ⟨b, File.Sync k dst, by
          simp [copyFile, os.Open, ho, hsrc, os.Create, hc, hdst, io.Copy, h1, hb, set_set]⟩

theorem walkOne_file (k : Faults) (fn : Run → String → FileInfo → Option Errno → Run × Option Errno)
    (s : Run) (path : String) (bytes : List Nat) (hfile : s.fs path = some (.file bytes))
    (hstat : k.statDenied path = false) :
    walkOne k fn s path = fn s path ⟨false⟩ none := by
  simp [walkOne, os.Stat, hstat, hfile]

theorem walkNames_cons (k : Faults)
    (fn : Run → String → FileInfo → Option Errno → Run × Option Errno)
    (s : Run) (path : String) (rest : List String) (n : Node) (h : s.fs path = some n)
    (hgo : (walkOne k fn s path).2 = none) :
    walkNames k fn (path :: rest) s = walkNames k fn rest (walkOne k fn s path).1 := by
  rcases hw : walkOne k fn s path with ⟨s₁, _ | e⟩
  · simp [walkNames, h, hw]
  · rw [hw] at hgo
    cases hgo

theorem walkFn_out (k : Faults) (tgt : String) (fs : FileSystem) (o : List Msg) (d c : Nat)
    (p : String) (info : FileInfo) (err : Option Errno) :
    (walkFn k tgt ⟨fs, o, d, c⟩ p info err).1.fs = (walkFn k tgt ⟨fs, [], d, c⟩ p info err).1.fs ∧
    (walkFn k tgt ⟨fs, o, d, c⟩ p info err).1.deletedCount =
      (walkFn k tgt ⟨fs, [], d, c⟩ p info err).1.deletedCount ∧
    (walkFn k tgt ⟨fs, o, d, c⟩ p info err).1.copiedCount =
      (walkFn k tgt ⟨fs, [], d, c⟩ p info err).1.copiedCount ∧
    (walkFn k tgt ⟨fs, o, d, c⟩ p info err).2 = (walkFn k tgt ⟨fs, [], d, c⟩ p info err).2 := by
  unfold walkFn
  cases err with
  | some e => exact ⟨rfl, rfl, rfl, rfl⟩
  | none =>
    simp only
    split
    · exact ⟨rfl, rfl, rfl, rfl⟩
    · split
      · split
        · split <;> exact ⟨rfl, rfl, rfl, rfl⟩
        · split
          · split
            · split <;> exact ⟨rfl, rfl, rfl, rfl⟩
            · exact ⟨rfl, rfl, rfl, rfl⟩
          · exact ⟨rfl, rfl, rfl, rfl⟩
      · exact ⟨rfl, rfl, rfl, rfl⟩

/-- The console plays no part in what a step does to the file system and the
counters, nor in whether it reports an error. -/
theorem walkOne_same (k : Faults) (tgt : String) (s t : Run) (p : String)
    (h : SameButOut s t) :
    SameButOut (walkOne k (walkFn k tgt) s p).1 (walkOne k (walkFn k tgt) t p).1 ∧
      (walkOne k (walkFn k tgt) s p).2 = (walkOne k (walkFn k tgt) t p).2 := by
  obtain ⟨fs, o, d, c⟩ := s
  obtain ⟨fs', o', d', c'⟩ := t
  obtain ⟨h1, h2, h3⟩ := h
  simp only at h1 h2 h3
  subst h1 h2 h3
  have key : ∀ info err,
      SameButOut (walkFn k tgt ⟨fs, o, d, c⟩ p info err).1
        (walkFn k tgt ⟨fs, o', d, c⟩ p info err).1 ∧
      (walkFn k tgt ⟨fs, o, d, c⟩ p info err).2 = (walkFn k tgt ⟨fs, o', d, c⟩ p info err).2 := by
    intro info err
    obtain ⟨a1, a2, a3, a4⟩ := walkFn_out k tgt fs o d c p info err
    obtain ⟨b1, b2, b3, b4⟩ := walkFn_out k tgt fs o' d c p info err
    exact ⟨⟨a1.trans b1.symm, a2.trans b2.symm, a3.trans b3.symm⟩, a4.trans b4.symm⟩
  unfold walkOne
  simp only
  split
  · exact key _ _
  · exact key _ _
  · exact key _ _

theorem walkNames_same (k : Faults) (tgt : String) (names : List String) (s t : Run)
    (h : SameButOut s t) :
    SameButOut (walkNames k (walkFn k tgt) names s).1 (walkNames k (walkFn k tgt) names t).1 ∧
      (walkNames k (walkFn k tgt) names s).2 = (walkNames k (walkFn k tgt) names t).2 := by
  induction names generalizing s t with
  | nil => exact ⟨h, rfl⟩
  | cons p rest ih =>
    unfold walkNames
    rw [← h.1]
    cases s.fs p with
    | none => exact ih s t h
    | some n =>
      simp only
      obtain ⟨h1, h2⟩ := walkOne_same k tgt s t p h
      rcases hs : walkOne k (walkFn k tgt) s p with ⟨s₁, _ | e⟩
      · rcases ht : walkOne k (walkFn k tgt) t p with ⟨t₁, _ | e'⟩
        · rw [hs, ht] at h1
          exact ih s₁ t₁ h1
        · rw [hs, ht] at h2
          cases h2
      · rcases ht : walkOne k (walkFn k tgt) t p with ⟨t₁, _ | e'⟩
        · rw [hs, ht] at h2
          cases h2
        · rw [hs, ht] at h1 h2
          exact ⟨h1, h2⟩

/-- C7, as the code has it (per-file failures). When the walk reaches a regular
file and the deletion of an Ephemeral fails, or the copy of a Candidate with
nothing at its destination fails (at open, create, copy or flush), the callback
returns no error, `deletedCount` and `copiedCount` are what they were, the file
itself is untouched, no path other than the destination of the failed copy has
changed, the failure is the line added to the console, and the walk goes on:
walking the file and then the names after it is walking those names from the
state the failed attempt left. A failed deletion, and a copy that fails at open
or at create, leave the file system as it was; whenever the file system is as it
was, the names after the file are processed, console aside, as if the file had
not been among the names. A copy that fails after the destination was created
leaves a regular file at the destination, and the callback then skips every
Candidate of the same file name. -/
theorem per_file_failure_not_fatal (k : Faults) (templatesDir : String) (s : Run)
    (path : String) (rest : List String) (bytes : List Nat)
    (hfile : s.fs path = some (.file bytes)) (hstat : k.statDenied path = false)
    (hfail : (classify path = .Ephemeral ∧ (os.Remove k s.fs path).2 ≠ none) ∨
      (classify path = .Candidate ∧
        os.Stat k s.fs (Join templatesDir (Base path)) = .error .ENOENT ∧
        (copyFile k s.fs path (Join templatesDir (Base path))).2 ≠ none)) :
    (walkOne k (walkFn k templatesDir) s path).2 = none ∧
    (walkOne k (walkFn k templatesDir) s path).1.deletedCount = s.deletedCount ∧
    (walkOne k (walkFn k templatesDir) s path).1.copiedCount = s.copiedCount ∧
    (walkOne k (walkFn k templatesDir) s path).1.fs path = some (.file bytes) ∧
    (∀ q, q ≠ Join templatesDir (Base path) →
      (walkOne k (walkFn k templatesDir) s path).1.fs q = s.fs q) ∧
    (∃ e, (walkOne k (walkFn k templatesDir) s path).1.out = s.out ++ [.failedDelete path e] ∨
      (walkOne k (walkFn k templatesDir) s path).1.out =
        s.out ++ [.failedCopy path (Join templatesDir (Base path)) e]) ∧
    walkNames k (walkFn k templatesDir) (path :: rest) s =
      walkNames k (walkFn k templatesDir) rest (walkOne k (walkFn k templatesDir) s path).1 ∧
    (classify path = .Ephemeral → (walkOne k (walkFn k templatesDir) s path).1.fs = s.fs) ∧
    ((walkOne k (walkFn k templatesDir) s path).1.fs = s.fs →
      SameButOut (walkNames k (walkFn k templatesDir) (path :: rest) s).1
        (walkNames k (walkFn k templatesDir) rest s).1 ∧
      (walkNames k (walkFn k templatesDir) (path :: rest) s).2 =
        (walkNames k (walkFn k templatesDir) rest s).2) ∧
    (classify path = .Candidate →
      (k.openDenied path = true ∨ k.createDenied (Join templatesDir (Base path)) = true) →
      (walkOne k (walkFn k templatesDir) s path).1.fs = s.fs) ∧
    (classify path = .Candidate → k.openDenied path = false →
      k.createDenied (Join templatesDir (Base path)) = false →
      (∃ c, (walkOne k (walkFn k templatesDir) s path).1.fs =
        s.fs.set (Join templatesDir (Base path)) (some (.file c))) ∧
      ∀ q, classify q = .Candidate → Base q = Base path →
        walkFn k templatesDir (walkOne k (walkFn k templatesDir) s path).1 q ⟨false⟩ none =
          ((walkOne k (walkFn k templatesDir) s path).1, none)) := by
  have hw := walkOne_file k (walkFn k templatesDir) s path bytes hfile hstat
  have key : (walkOne k (walkFn k templatesDir) s path).2 = none ∧
      (walkOne k (walkFn k templatesDir) s path).1.deletedCount = s.deletedCount ∧
      (walkOne k (walkFn k templatesDir) s path).1.copiedCount = s.copiedCount ∧
      (walkOne k (walkFn k templatesDir) s path).1.fs path = some (.file bytes) ∧
      (∀ q, q ≠ Join templatesDir (Base path) →
        (walkOne k (walkFn k templatesDir) s path).1.fs q = s.fs q) ∧
      (∃ e, (walkOne k (walkFn k templatesDir) s path).1.out =
          s.out ++ [.failedDelete path e] ∨
        (walkOne k (walkFn k templatesDir) s path).1.out =
          s.out ++ [.failedCopy path (Join templatesDir (Base path)) e]) ∧
      (classify path = .Ephemeral → (walkOne k (walkFn k templatesDir) s path).1.fs = s.fs) := by
    rw [hw]
    rcases hfail with ⟨hc, hr⟩ | ⟨hc, hst, hcp⟩
    · rw [walkFn_ephemeral k templatesDir s path hc]
      rcases hrm : os.Remove k s.fs path with ⟨fs₁, _ | e⟩
      · rw [hrm] at hr; exact absurd rfl hr
      · exact ⟨rfl, rfl, rfl, hfile, fun _ _ => rfl, ⟨e, Or.inl rfl⟩, fun _ => rfl⟩
    · rw [walkFn_candidate k templatesDir s path hc, hst]
      simp only [os.IsNotExist, decide_True, if_true]
      have hd : path ≠ Join templatesDir (Base path) := by
        intro e2
        rw [← e2] at hst
        simp [stat_faults, hstat, hfile] at hst
      have ho := fun q hq => copyFile_other k s.fs path (Join templatesDir (Base path)) q hq
      rcases hcf : copyFile k s.fs path (Join templatesDir (Base path)) with ⟨fs₁, _ | e⟩
      · rw [hcf] at hcp; exact absurd rfl hcp
      · rw [hcf] at ho
        simp only at ho
        refine ⟨rfl, rfl, rfl, by show fs₁ path = _; rw [ho path hd, hfile], ho,
          ⟨e, Or.inr rfl⟩, ?_⟩
        intro he
        rw [hc] at he
        cases he
  have extra : classify path = .Candidate →
      ((k.openDenied path = true ∨ k.createDenied (Join templatesDir (Base path)) = true) →
        (walkOne k (walkFn k templatesDir) s path).1.fs = s.fs) ∧
      (k.openDenied path = false → k.createDenied (Join templatesDir (Base path)) = false →
        ∃ c, (walkOne k (walkFn k templatesDir) s path).1.fs =
          s.fs.set (Join templatesDir (Base path)) (some (.file c))) := by
    intro hc
    rcases hfail with ⟨hc', -⟩ | ⟨-, hst, -⟩
    · rw [hc] at hc'
      cases hc'
    · have hdst : s.fs (Join templatesDir (Base path)) = none := by
        rw [stat_faults] at hst
        by_cases hsd : k.statDenied (Join templatesDir (Base path)) = true
        · simp [hsd] at hst
        · cases hd : s.fs (Join templatesDir (Base path)) with
          | none => rfl
          | some n => simp [hsd, hd] at hst
      rw [hw, walkFn_candidate k templatesDir s path hc, hst]
      simp only [os.IsNotExist, decide_True, if_true]
      rcases copyFile_cases k s.fs path (Join templatesDir (Base path)) bytes hfile hdst with
        ⟨hden, e, hcf⟩ | ⟨ho, hcr, c, e, hcf⟩
      · rw [hcf]
        refine ⟨fun _ => rfl, fun h1 h2 => ?_⟩
        rcases hden with h | h
        · rw [h1] at h
          cases h
        · rw [h2] at h
          cases h
      · rw [hcf]
        refine ⟨fun hden => ?_, fun _ _ => ?_⟩
        · rcases hden with h | h
          · rw [ho] at h
            cases h
          · rw [hcr] at h
            cases h
        · cases e with
          | some e => exact ⟨c, rfl⟩
          | none => exact ⟨c, rfl⟩
  have hcont := walkNames_cons k (walkFn k templatesDir) s path rest _ hfile key.1
  refine ⟨key.1, key.2.1, key.2.2.1, key.2.2.2.1, key.2.2.2.2.1, key.2.2.2.2.2.1, hcont,
    key.2.2.2.2.2.2, ?_, fun hc => (extra hc).1, fun hc ho hcr => ?_⟩
  · intro hfs
    rw [hcont]
    exact walkNames_same k templatesDir rest _ s ⟨hfs, key.2.1, key.2.2.1⟩
  · obtain ⟨c, hset⟩ := (extra hc).2 ho hcr
    refine ⟨⟨c, hset⟩, fun q hq hb => ?_⟩
    have hthere : (walkOne k (walkFn k templatesDir) s path).1.fs
        (Join templatesDir (Base q)) = some (.file c) := by
      rw [hset, hb]
      simp [FileSystem.set]
    exact walkFn_skip_existing k templatesDir _ q _ hq hthere

/-- C7 on a tree whose preview cannot be deleted, on one whose first logo
cannot be opened, and on one whose first logo breaks in the transfer: the
counters stay at zero at the failing file; in the first two the image after it
is still copied, in the third a regular file is left at the destination. -/
theorem per_file_failure_not_fatal_witness :
    fsScenario "tasks/a/tpl1234567890123.png" = some (.file [9]) ∧
    kNoRemove.statDenied "tasks/a/tpl1234567890123.png" = false ∧
    classify "tasks/a/tpl1234567890123.png" = .Ephemeral ∧
    (os.Remove kNoRemove fsScenario "tasks/a/tpl1234567890123.png").2 ≠ none ∧
    (walkOne kNoRemove (walkFn kNoRemove "templates") ⟨fsScenario, [], 0, 0⟩
      "tasks/a/tpl1234567890123.png").1.deletedCount = 0 ∧
    (walkNames kNoRemove (walkFn kNoRemove "templates")
      ["tasks/a/tpl1234567890123.png", "tasks/a/zlogo.png"] ⟨fsScenario, [], 0, 0⟩).1.copiedCount
      = 1 ∧
    classify "tasks/a/logo.png" = .Candidate ∧
    (copyFile kNoOpenA fsTwoLogos "tasks/a/logo.png"
      (Join "templates" (Base "tasks/a/logo.png"))).2 ≠ none ∧
    (walkOne kNoOpenA (walkFn kNoOpenA "templates") ⟨fsTwoLogos, [], 0, 0⟩
      "tasks/a/logo.png").1.copiedCount = 0 ∧
    (walkNames kNoOpenA (walkFn kNoOpenA "templates")
      ["tasks/a/logo.png", "tasks/b/logo.png"] ⟨fsTwoLogos, [], 0, 0⟩).1.copiedCount = 1 ∧
    (copyFile kBrokenCopyA fsTwoLogos "tasks/a/logo.png"
      (Join "templates" (Base "tasks/a/logo.png"))).2 ≠ none ∧
    (walkOne kBrokenCopyA (walkFn kBrokenCopyA "templates") ⟨fsTwoLogos, [], 0, 0⟩
      "tasks/a/logo.png").1.copiedCount = 0 ∧
    (∃ c, (walkOne kBrokenCopyA (walkFn kBrokenCopyA "templates") ⟨fsTwoLogos, [], 0, 0⟩
      "tasks/a/logo.png").1.fs =
        fsTwoLogos.set (Join "templates" (Base "tasks/a/logo.png")) (some (.file c))) :=
  have h := per_file_failure_not_fatal kNoRemove "templates" ⟨fsScenario, [], 0, 0⟩
    "tasks/a/tpl1234567890123.png" ["tasks/a/zlogo.png"] [9] (by decide) (by decide)
    (Or.inl ⟨by decide, by decide⟩)
  have h' := per_file_failure_not_fatal kNoOpenA "templates" ⟨fsTwoLogos, [], 0, 0⟩
    "tasks/a/logo.png" ["tasks/b/logo.png"] [1, 2, 3] (by decide) (by decide)
    (Or.inr ⟨by decide, rfl, by decide⟩)
  have h'' := per_file_failure_not_fatal kBrokenCopyA "templates" ⟨fsTwoLogos, [], 0, 0⟩
    "tasks/a/logo.png" ["tasks/b/logo.png"] [1, 2, 3] (by decide) (by decide)
    (Or.inr ⟨by decide, rfl, by decide⟩)
  ⟨by decide, by decide, by decide, by decide, h.2.1, by rw [h.2.2.2.2.2.2.1]; decide,
    by decide, by decide, h'.2.2.1, by rw [h'.2.2.2.2.2.2.1]; decide, by decide, h''.2.2.1,
    (h''.2.2.2.2.2.2.2.2.2.2 (by decide) (by decide) (by decide)).1⟩

/-- C7 as stated fails: the transfer from `tasks/a/logo.png` breaks after one
byte, so its copy fails, and the partial file stays at `templates/logo.png`.
The walk goes on and the counters stay at zero, but the Candidate
`tasks/b/logo.png`, which comes later and has the same name, is skipped: the
run ends with no copy and `templates/logo.png` holding the one byte. Had
`tasks/a/logo.png` been absent, `tasks/b/logo.png` would have been copied: one
copy, and `templates/logo.png` holding its two bytes. -/
theorem later_candidate_skipped_after_broken_copy :
    classify "tasks/a/logo.png" = .Candidate ∧
    (copyFile kBrokenCopyA fsTwoLogos "tasks/a/logo.png" "templates/logo.png").2 =
      some .EIOERR ∧
    (main kBrokenCopyA ["tasks/a", "tasks/a/logo.png", "tasks/b", "tasks/b/logo.png"]
      "tasks" "templates" fsTwoLogos).out =
      [.failedCopy "tasks/a/logo.png" "templates/logo.png" .EIOERR, .completed 0 0,
        .pressEnter] ∧
    (main kBrokenCopyA ["tasks/a", "tasks/a/logo.png", "tasks/b", "tasks/b/logo.png"]
      "tasks" "templates" fsTwoLogos).fs "templates/logo.png" = some (.file [1]) ∧
    fsOneLogo "tasks/a/logo.png" = none ∧
    (main kBrokenCopyA ["tasks/a", "tasks/a/logo.png", "tasks/b", "tasks/b/logo.png"]
      "tasks" "templates" fsOneLogo).out =
      [.copied "tasks/b/logo.png" "templates/logo.png", .completed 0 1, .pressEnter] ∧
    (main kBrokenCopyA ["tasks/a", "tasks/a/logo.png", "tasks/b", "tasks/b/logo.png"]
      "tasks" "templates" fsOneLogo).fs "templates/logo.png" = some (.file [4, 5]) := by
  decide

/-! ## C8: an error of the traversal ends the walk -/

theorem walkNames_append_error (k : Faults)
    (fn : Run → String → FileInfo → Option Errno → Run × Option Errno)
    (pre : List String) (q : String) (post : List String) (s s₁ s₂ : Run) (n : Node) (e : Errno)
    (hpre : walkNames k fn pre s = (s₁, none))
    (hq : s₁.fs q = some n)
    (herr : walkOne k fn s₁ q = (s₂, some e)) :
    walkNames k fn (pre ++ q :: post) s = (s₂, some e) := by
  induction pre generalizing s with
  | nil =>
    simp only [walkNames] at hpre
    cases hpre
    simp [walkNames, hq, herr]
  | cons p ps ih =>
    simp only [List.cons_append, walkNames] at hpre ⊢
    cases hp : s.fs p with
    | none =>
      rw [hp] at hpre
      simp only at hpre ⊢
      exact ih s hpre
    | some m =>
      rw [hp] at hpre
      simp only at hpre ⊢
      rcases hw : walkOne k fn s p with ⟨t, _ | e'⟩
      · rw [hw] at hpre
        simp only at hpre ⊢
        exact ih t hpre
      · rw [hw] at hpre
        simp only at hpre
        cases hpre

/-- C8 (traversal errors). Bootstrap succeeded, the root is a directory that can
be listed, and the walk has processed the names `pre` without error, reaching
state `s₁`. If the next name `q` has an entry and the walk reports an error for
it (`Lstat` fails, or `q` is a directory that cannot be listed), then the run
ends there: its result does not depend on the names `post` that follow, the
file system and the counters are those of `s₁`, and the console shows the
traversal error followed by the totals of `s₁`. Likewise, on any file system on
which the root itself cannot be examined (it is missing, say), or is a directory
that cannot be listed, nothing is processed and the console shows the error and
the totals zero and zero. -/
theorem traversal_error_fatal (k : Faults) (pre : List String) (q : String)
    (post : List String) (tasksDir templatesDir : String) (fs fs₁ : FileSystem) (s₁ : Run)
    (node : Node) (e : Errno)
    (hboot : ensureDir k fs templatesDir = (fs₁, none))
    (hroot : fs₁ tasksDir = some .dir)
    (hrootok : k.statDenied tasksDir = false ∧ k.readDirDenied tasksDir = false)
    (hpre : walkNames k (walkFn k templatesDir) pre ⟨fs₁, [], 0, 0⟩ = (s₁, none))
    (hq : s₁.fs q = some node)
    (herr : os.Stat k s₁.fs q = .error e ∨
      (os.Stat k s₁.fs q = .ok .dir ∧ k.readDirDenied q = true ∧ e = .EACCES)) :
    main k (pre ++ q :: post) tasksDir templatesDir fs =
      ⟨s₁.fs, s₁.out ++ [.errorTraversing e, .completed s₁.deletedCount s₁.copiedCount,
        .pressEnter], s₁.deletedCount, s₁.copiedCount⟩ ∧
    (∀ (names : List String) (gs gs₁ : FileSystem) (e₀ : Errno),
      ensureDir k gs templatesDir = (gs₁, none) → os.Stat k gs₁ tasksDir = .error e₀ →
      main k names tasksDir templatesDir gs =
        ⟨gs₁, [.errorTraversing e₀, .completed 0 0, .pressEnter], 0, 0⟩) ∧
    ∀ (names : List String) (gs gs₁ : FileSystem),
      ensureDir k gs templatesDir = (gs₁, none) → os.Stat k gs₁ tasksDir = .ok .dir →
      k.readDirDenied tasksDir = true →
      main k names tasksDir templatesDir gs =
        ⟨gs₁, [.errorTraversing .EACCES, .completed 0 0, .pressEnter], 0, 0⟩ := by
  have hone : walkOne k (walkFn k templatesDir) s₁ q = (s₁, some e) := by
    unfold walkOne
    rcases herr with h | ⟨h, hr, he⟩
    · rw [h]
      rfl
    · rw [h]
      simp only [toEnv_readDirDenied, hr, if_true, he]
      rfl
  have hwalk := walkNames_append_error k (walkFn k templatesDir) pre q post _ s₁ s₁ node e
    hpre hq hone
  refine ⟨?_, ?_, ?_⟩
  · unfold main
    rw [hboot]
    simp only
    have hW : Walk k (pre ++ q :: post) tasksDir (walkFn k templatesDir) ⟨fs₁, [], 0, 0⟩ =
        (s₁, some e) := by
      unfold Walk
      simp only [stat_faults, toEnv_readDirDenied, hrootok.1, hroot, hrootok.2, Bool.false_eq_true,
        if_false, walkFn_dir]
      exact hwalk
    rw [hW]
    simp [waitForKeypress]
  · intro names gs gs₁ e₀ hb hst
    unfold main
    rw [hb]
    simp only
    have hW : Walk k names tasksDir (walkFn k templatesDir) ⟨gs₁, [], 0, 0⟩ =
        (⟨gs₁, [], 0, 0⟩, some e₀) := by
      unfold Walk
      simp only [hst, walkFn_err]
    rw [hW]
    simp [waitForKeypress]
  · intro names gs gs₁ hb hst hr
    unfold main
    rw [hb]
    simp only
    have hW : Walk k names tasksDir (walkFn k templatesDir) ⟨gs₁, [], 0, 0⟩ =
        (⟨gs₁, [], 0, 0⟩, some .EACCES) := by
      unfold Walk
      simp only [hst, toEnv_readDirDenied, hr, if_true, walkFn_err]
    rw [hW]
    simp [waitForKeypress]

/-- C8 on a tree whose second name cannot be read: the logo before it is
copied, the preview after it survives, and the summary reports one copy. -/
theorem traversal_error_fatal_witness :
    ensureDir kNoStat fsScenario "templates" = (fsScenario, none) ∧
    (main kNoStat (["tasks/a", "tasks/a/logo.png"] ++
      "tasks/a/tpl1234567890123.png" :: ["tasks/a/zlogo.png"]) "tasks" "templates"
      fsScenario).out =
      [.copied "tasks/a/logo.png" "templates/logo.png", .errorTraversing .EACCES,
        .completed 0 1, .pressEnter] ∧
    (main kNoStat (["tasks/a", "tasks/a/logo.png"] ++
      "tasks/a/tpl1234567890123.png" :: ["tasks/a/zlogo.png"]) "tasks" "templates"
      fsScenario).fs "tasks/a/tpl1234567890123.png" = some (.file [9]) ∧
    (main kNoStat (["tasks/a", "tasks/a/logo.png"] ++
      "tasks/a/tpl1234567890123.png" :: ["tasks/a/zlogo.png"]) "tasks" "templates"
      fsScenario).fs "templates/zlogo.png" = none :=
  have h := traversal_error_fatal kNoStat ["tasks/a", "tasks/a/logo.png"]
    "tasks/a/tpl1234567890123.png" ["tasks/a/zlogo.png"] "tasks" "templates" fsScenario
    fsScenario
    (walkNames kNoStat (walkFn kNoStat "templates") ["tasks/a", "tasks/a/logo.png"]
      ⟨fsScenario, [], 0, 0⟩).1 (.file [9]) .EACCES rfl (by decide) (by decide) rfl (by decide)
    (Or.inl rfl)
  ⟨rfl, by rw [h.1]; decide, by rw [h.1]; decide, by rw [h.1]; decide⟩

/-! ## C9: `ensureDir` with a file in the way -/

/-- C9 at the failing input: `templates` names a regular file. `ensureDir`
returns no error and changes nothing, so the target is still a regular file, not
a directory, when the walk begins; the walk then runs (it deletes the preview)
and the run ends with the target still a regular file. -/
theorem ensureDir_accepts_regular_file :
    fsBlocked "templates" = some (.file [0]) ∧
    (ensureDir noFaults fsBlocked "templates").2 = none ∧
    (ensureDir noFaults fsBlocked "templates").1 "templates" = some (.file [0]) ∧
    (main noFaults ["tasks/tpl1234567890123.png"] "tasks" "templates" fsBlocked).out =
      [.deleted "tasks/tpl1234567890123.png", .completed 1 0, .pressEnter] ∧
    (main noFaults ["tasks/tpl1234567890123.png"] "tasks" "templates" fsBlocked).fs "templates" =
      some (.file [0]) := by
  decide

/-! ## C10: the report of the totals -/

theorem totals_append (a b : List Msg) : totals (a ++ b) = totals a ++ totals b := by
  simp [totals, List.filterMap_append]

theorem walkFn_totals (k : Faults) (tgt : String) (s : Run) (path : String) (info : FileInfo)
    (err : Option Errno) : totals (walkFn k tgt s path info err).1.out = totals s.out := by
  unfold walkFn
  split
  · rfl
  · split
    · rfl
    · split
      · simp only
        split
        · split
          · simp [totals_append, totals]
          · simp [totals_append, totals]
        · split
          · split
            · split
              · simp [totals_append, totals]
              · simp [totals_append, totals]
            · rfl
          · rfl
      · rfl

theorem walkOne_totals (k : Faults) (tgt : String) (s : Run) (path : String) :
    totals (walkOne k (walkFn k tgt) s path).1.out = totals s.out := by
  unfold walkOne
  split <;> exact walkFn_totals _ _ _ _ _ _

theorem walkNames_totals (k : Faults) (tgt : String) (names : List String) (s : Run) :
    totals (walkNames k (walkFn k tgt) names s).1.out = totals s.out := by
  induction names generalizing s with
  | nil => rfl
  | cons p ps ih =>
    simp only [walkNames]
    split
    · exact ih s
    · have h1 := walkOne_totals k tgt s p
      rcases hw : walkOne k (walkFn k tgt) s p with ⟨t, _ | e⟩
      · rw [hw] at h1
        simp only at h1 ⊢
        rw [ih t, h1]
      · rw [hw] at h1
        exact h1

theorem Walk_totals (k : Faults) (tgt : String) (names : List String) (root : String) (s : Run) :
    totals (Walk k names root (walkFn k tgt) s).1.out = totals s.out := by
  unfold Walk
  split
  · exact walkFn_totals _ _ _ _ _ _
  · exact walkFn_totals _ _ _ _ _ _
  · split
    · exact walkFn_totals _ _ _ _ _ _
    · simp only [walkFn_dir]
      exact walkNames_totals k tgt names s

theorem main_boot_ok (k : Faults) (names : List String) (root tgt : String)
    (fs fs₁ : FileSystem) (h : ensureDir k fs tgt = (fs₁, none)) :
    (main k names root tgt fs).fs = (Walk k names root (walkFn k tgt) ⟨fs₁, [], 0, 0⟩).1.fs ∧
    (main k names root tgt fs).deletedCount =
      (Walk k names root (walkFn k tgt) ⟨fs₁, [], 0, 0⟩).1.deletedCount ∧
    (main k names root tgt fs).copiedCount =
      (Walk k names root (walkFn k tgt) ⟨fs₁, [], 0, 0⟩).1.copiedCount ∧
    (main k names root tgt fs).out =
      (Walk k names root (walkFn k tgt) ⟨fs₁, [], 0, 0⟩).1.out ++
        (match (Walk k names root (walkFn k tgt) ⟨fs₁, [], 0, 0⟩).2 with
          | some e => [.errorTraversing e]
          | none => []) ++
        [.completed (Walk k names root (walkFn k tgt) ⟨fs₁, [], 0, 0⟩).1.deletedCount
          (Walk k names root (walkFn k tgt) ⟨fs₁, [], 0, 0⟩).1.copiedCount, .pressEnter] := by
  unfold main
  rw [h]
  refine ⟨rfl, rfl, rfl, ?_⟩
  simp only
  rcases Walk k names root (walkFn k tgt) ⟨fs₁, [], 0, 0⟩ with ⟨t, _ | e⟩ <;>
    simp [waitForKeypress]

theorem main_boot_fail (k : Faults) (names : List String) (root tgt : String)
    (fs fs₁ : FileSystem) (e : Errno) (h : ensureDir k fs tgt = (fs₁, some e)) :
    main k names root tgt fs = ⟨fs₁, [.failedCreateDir e, .pressEnter], 0, 0⟩ := by
  unfold main
  rw [h]
  rfl

/-- C10, as the code has it. When the bootstrap succeeds, whether the walk
completes or is cut short by a traversal error, the console ends with the totals
line, carrying the final counters, and the prompt, and the totals line occurs
exactly once in the whole output. When the bootstrap fails, the console holds
the bootstrap failure and the prompt, and no totals line. -/
theorem totals_reported_once_after_bootstrap (k : Faults) (names : List String)
    (tasksDir templatesDir : String) (fs : FileSystem) :
    match (ensureDir k fs templatesDir).2 with
    | none =>
      totals (main k names tasksDir templatesDir fs).out =
        [((main k names tasksDir templatesDir fs).deletedCount,
          (main k names tasksDir templatesDir fs).copiedCount)] ∧
      ∃ body, (main k names tasksDir templatesDir fs).out =
        body ++ [.completed (main k names tasksDir templatesDir fs).deletedCount
          (main k names tasksDir templatesDir fs).copiedCount, .pressEnter]
    | some e =>
      (main k names tasksDir templatesDir fs).out = [.failedCreateDir e, .pressEnter] ∧
      totals (main k names tasksDir templatesDir fs).out = [] := by
  rcases hb : ensureDir k fs templatesDir with ⟨fs₁, _ | e⟩
  · simp only
    obtain ⟨-, m2, m3, m4⟩ := main_boot_ok k names tasksDir templatesDir fs fs₁ hb
    have ht := Walk_totals k templatesDir names tasksDir ⟨fs₁, [], 0, 0⟩
    constructor
    · rw [m4, m2, m3, totals_append, totals_append, ht]
      rcases (Walk k names tasksDir (walkFn k templatesDir) ⟨fs₁, [], 0, 0⟩).2 with _ | e <;>
        simp [totals]
    · rw [m2, m3]
      exact ⟨_, m4⟩
  · simp only
    rw [main_boot_fail k names tasksDir templatesDir fs fs₁ e hb]
    simp [totals]

/-- C10 refuted as stated: when the target directory cannot be created the run
prints the bootstrap failure and the prompt, and never the totals. -/
theorem no_totals_when_bootstrap_fails :
    (ensureDir kNoMkdir fsNoTarget "templates").2 = some .EACCES ∧
    (main kNoMkdir ["tasks/logo.png"] "tasks" "templates" fsNoTarget).out =
      [.failedCreateDir .EACCES, .pressEnter] ∧
    (totals (main kNoMkdir ["tasks/logo.png"] "tasks" "templates" fsNoTarget).out).length
      ≠ 1 := by
  decide

/-! ## What one step of the walk can do -/

theorem walkNames_step (k : Faults) (tgt : String) (p : String) (rest : List String) (s : Run) :
    walkNames k (walkFn k tgt) (p :: rest) s =
      match stepName k tgt s p with
      | (s₁, some e) => (s₁, some e)
      | (s₁, none) => walkNames k (walkFn k tgt) rest s₁ := by
  unfold stepName
  simp only [walkNames]
  cases s.fs p <;> rfl

/-- What a step of the walk does to the file system and the counters: nothing,
or it removes the Ephemeral file it visits, or it creates the destination, so
far absent, of the Candidate it visits. -/
theorem stepName_effect (k : Faults) (tgt : String) (s : Run) (p : String) :
    ((stepName k tgt s p).1.fs = s.fs ∧
      (stepName k tgt s p).1.deletedCount = s.deletedCount ∧
      (stepName k tgt s p).1.copiedCount = s.copiedCount) ∨
    ((∃ b, s.fs p = some (.file b)) ∧ classify p = .Ephemeral ∧
      (stepName k tgt s p).1.fs = s.fs.set p none ∧ (stepName k tgt s p).2 = none ∧
      (stepName k tgt s p).1.deletedCount = s.deletedCount + 1 ∧
      (stepName k tgt s p).1.copiedCount = s.copiedCount) ∨
    ((∃ b, s.fs p = some (.file b)) ∧ classify p = .Candidate ∧
      s.fs (Join tgt (Base p)) = none ∧
      (∃ c, (stepName k tgt s p).1.fs = s.fs.set (Join tgt (Base p)) (some (.file c))) ∧
      (stepName k tgt s p).2 = none ∧
      (stepName k tgt s p).1.deletedCount = s.deletedCount ∧
      ((stepName k tgt s p).1.copiedCount = s.copiedCount ∨
        (stepName k tgt s p).1.copiedCount = s.copiedCount + 1)) := by
  unfold stepName
  cases hp : s.fs p with
  | none => exact Or.inl ⟨rfl, rfl, rfl⟩
  | some n =>
    simp only
    by_cases hsd : k.statDenied p = true
    · left
      have : walkOne k (walkFn k tgt) s p = (s, some .EACCES) := by
        simp [walkOne, stat_faults, hsd, walkFn_err]
      rw [this]
      exact ⟨rfl, rfl, rfl⟩
    · cases n with
      | dir =>
        left
        have : (walkOne k (walkFn k tgt) s p).1 = s := by
          simp only [walkOne, stat_faults, hsd, hp, Bool.false_eq_true, if_false]
          split <;> rfl
        rw [this]
        exact ⟨rfl, rfl, rfl⟩
      | file b =>
        have hw : walkOne k (walkFn k tgt) s p = walkFn k tgt s p ⟨false⟩ none :=
          walkOne_file k _ s p b hp (by simpa using hsd)
        rw [hw]
        cases hc : classify p with
        | Ignored =>
          left
          rw [walkFn_ignored k tgt s p _ hc]
          exact ⟨rfl, rfl, rfl⟩
        | Ephemeral =>
          rw [walkFn_ephemeral k tgt s p hc]
          by_cases hr : k.removeDenied p = true
          · left
            simp [os.Remove, hr]
          · right; left
            simp [os.Remove, hr, hp]
        | Candidate =>
          rw [walkFn_candidate k tgt s p hc]
          by_cases hst : k.statDenied (Join tgt (Base p)) = true
          · left
            simp [stat_faults, hst, os.IsNotExist]
          · cases hd : s.fs (Join tgt (Base p)) with
            | some m =>
              left
              simp [stat_faults, hst, hd]
            | none =>
              simp only [stat_faults, hst, Bool.false_eq_true, if_false, hd, os.IsNotExist,
                decide_True, if_true]
              rcases copyFile_cases k s.fs p (Join tgt (Base p)) b hp hd with
                ⟨-, e, hcf⟩ | ⟨-, -, c, e, hcf⟩
              · left
                rw [hcf]
                exact ⟨rfl, rfl, rfl⟩
              · right; right
                rw [hcf]
                cases e with
                | some e =>
                  exact ⟨⟨b, rfl⟩, trivial, trivial, ⟨c, rfl⟩, rfl, rfl, Or.inl rfl⟩
                | none =>
                  exact ⟨⟨b, rfl⟩, trivial, trivial, ⟨c, rfl⟩, rfl, rfl, Or.inr rfl⟩

theorem stepName_present (k : Faults) (tgt : String) (s : Run) (p : String) (n : Node)
    (h : s.fs p = some n) : stepName k tgt s p = walkOne k (walkFn k tgt) s p := by
  unfold stepName
  rw [h]

/-- An entry that is a directory, or a file that is not Ephemeral, is still
there, unchanged, after a step of the walk. -/
theorem stepName_keeps (k : Faults) (tgt : String) (s : Run) (p q : String) (n : Node)
    (hq : s.fs q = some n) (hn : n = .dir ∨ classify q ≠ .Ephemeral) :
    (stepName k tgt s p).1.fs q = some n := by
  rcases stepName_effect k tgt s p with ⟨h, -⟩ | ⟨⟨b, hb⟩, hc, h, -⟩ | ⟨-, -, hd, ⟨c, h⟩, -⟩
  · rw [h, hq]
  · rw [h]
    have hne : q ≠ p := by
      rintro rfl
      rcases hn with hn | hn
      · rw [hq, hn] at hb; cases hb
      · exact hn hc
    simp [FileSystem.set, hne, hq]
  · rw [h]
    have hne : q ≠ Join tgt (Base p) := by
      rintro rfl
      rw [hq] at hd; cases hd
    simp [FileSystem.set, hne, hq]

theorem walkNames_keeps (k : Faults) (tgt : String) (names : List String) (s : Run) (q : String)
    (n : Node) (hq : s.fs q = some n) (hn : n = .dir ∨ classify q ≠ .Ephemeral) :
    (walkNames k (walkFn k tgt) names s).1.fs q = some n := by
  induction names generalizing s with
  | nil => exact hq
  | cons p ps ih =>
    rw [walkNames_step]
    have h1 := stepName_keeps k tgt s p q n hq hn
    rcases hs : stepName k tgt s p with ⟨s₁, _ | e⟩
    · rw [hs] at h1
      exact ih s₁ h1
    · rw [hs] at h1
      exact h1

/-! ## C4: flattening -/

theorem base_in_dir (d n : List Char) (hn : SimpleName n) :
    Base (String.mk (d ++ '/' :: n)) = String.mk n ∧
      Ext (String.mk (d ++ '/' :: n)) = Ext (String.mk n) := by
  have hl : lastRev (String.mk (d ++ '/' :: n)).toList.reverse = n.reverse := by
    have := lastRev_snoc (d ++ ['/']) n (Or.inr ⟨d, rfl⟩) hn.2.1
    simpa using this
  constructor
  · rw [base_lastElem, hl, List.reverse_reverse]
    rw [hl]
    simpa using hn.1
  · rw [ext_lastElem, hl, List.reverse_reverse]

theorem classify_in_dir (d₁ d₂ n : List Char) (hn : SimpleName n) :
    classify (String.mk (d₁ ++ '/' :: n)) = classify (String.mk (d₂ ++ '/' :: n)) := by
  unfold classify
  rw [(base_in_dir d₁ n hn).1, (base_in_dir d₁ n hn).2, (base_in_dir d₂ n hn).1,
    (base_in_dir d₂ n hn).2]

/-- C4 (flattening), as the code has it. Two regular files `d₁/n` and `d₂/n`
in different directories, Candidates, have the one destination
`Join templatesDir n`: the directory of the source plays no part. If nothing is
at that destination when the walk reaches the first of them, and no failure hits
the first (it can be examined and opened, its destination probed and created,
the copy and the flush succeed), then the first is copied with its bytes and
counted; when the walk reaches the second, the step leaves the state as it is
(no copy, no change of a counter); and at the end of the walk the destination
still holds the bytes of the first. -/
theorem flattening_first_wins (k : Faults) (templatesDir : String) (s : Run)
    (d₁ d₂ n : List Char) (mid post : List String) (b₁ b₂ : List Nat)
    (hn : SimpleName n) (hd : d₁ ≠ d₂)
    (h₁ : s.fs (String.mk (d₁ ++ '/' :: n)) = some (.file b₁))
    (h₂ : s.fs (String.mk (d₂ ++ '/' :: n)) = some (.file b₂))
    (hcand : classify (String.mk (d₁ ++ '/' :: n)) = .Candidate)
    (hfree : s.fs (Join templatesDir (String.mk n)) = none)
    (hstat : k.statDenied (String.mk (d₁ ++ '/' :: n)) = false)
    (hprobe : k.statDenied (Join templatesDir (String.mk n)) = false)
    (hopen : k.openDenied (String.mk (d₁ ++ '/' :: n)) = false)
    (hcreate : k.createDenied (Join templatesDir (String.mk n)) = false)
    (hcopy : k.copyBroken (String.mk (d₁ ++ '/' :: n)) (Join templatesDir (String.mk n)) = none)
    (hsync : k.syncBroken (Join templatesDir (String.mk n)) = false) :
    String.mk (d₁ ++ '/' :: n) ≠ String.mk (d₂ ++ '/' :: n) ∧
    Join templatesDir (Base (String.mk (d₁ ++ '/' :: n))) = Join templatesDir (String.mk n) ∧
    Join templatesDir (Base (String.mk (d₂ ++ '/' :: n))) = Join templatesDir (String.mk n) ∧
    (stepName k templatesDir s (String.mk (d₁ ++ '/' :: n))).1.fs
      (Join templatesDir (String.mk n)) = some (.file b₁) ∧
    (stepName k templatesDir s (String.mk (d₁ ++ '/' :: n))).1.copiedCount =
      s.copiedCount + 1 ∧
    (stepName k templatesDir
      (walkNames k (walkFn k templatesDir) mid
        (stepName k templatesDir s (String.mk (d₁ ++ '/' :: n))).1).1
      (String.mk (d₂ ++ '/' :: n))).1 =
      (walkNames k (walkFn k templatesDir) mid
        (stepName k templatesDir s (String.mk (d₁ ++ '/' :: n))).1).1 ∧
    (walkNames k (walkFn k templatesDir)
      (String.mk (d₁ ++ '/' :: n) :: (mid ++ String.mk (d₂ ++ '/' :: n) :: post)) s).1.fs
      (Join templatesDir (String.mk n)) = some (.file b₁) := by
  have hb₁ := (base_in_dir d₁ n hn).1
  have hb₂ := (base_in_dir d₂ n hn).1
  have hcand₂ : classify (String.mk (d₂ ++ '/' :: n)) = .Candidate := by
    rw [← classify_in_dir d₁ d₂ n hn]; exact hcand
  have hdst := classify_destination templatesDir _ hcand
  rw [hb₁] at hdst
  -- the first step
  have hstep : stepName k templatesDir s (String.mk (d₁ ++ '/' :: n)) =
      (⟨s.fs.set (Join templatesDir (String.mk n)) (some (.file b₁)),
        s.out ++ [.copied (String.mk (d₁ ++ '/' :: n)) (Join templatesDir (String.mk n))],
        s.deletedCount, s.copiedCount + 1⟩, none) := by
    unfold stepName
    rw [h₁]
    simp only
    rw [walkOne_file k _ s _ b₁ h₁ hstat, walkFn_candidate k templatesDir s _ hcand, hb₁]
    have hs : os.Stat k s.fs (Join templatesDir (String.mk n)) = .error .ENOENT := by
      simp [os.Stat, hprobe, hfree]
    rw [hs]
    simp only [os.IsNotExist, decide_True, if_true]
    rw [copyFile_ok k s.fs _ _ b₁ h₁ hfree hopen hcreate hcopy hsync]
  have hfs₁ : (stepName k templatesDir s (String.mk (d₁ ++ '/' :: n))).1.fs
      (Join templatesDir (String.mk n)) = some (.file b₁) := by
    rw [hstep]; simp [FileSystem.set]
  have hne : String.mk (d₁ ++ '/' :: n) ≠ String.mk (d₂ ++ '/' :: n) := by
    intro e
    rw [string_mk_inj] at e
    exact hd (List.append_cancel_right e)
  refine ⟨hne, by rw [hb₁], by rw [hb₂], hfs₁, by rw [hstep], ?_, ?_⟩
  · -- the second is passed over
    have hsrc₁ := stepName_keeps k templatesDir s (String.mk (d₁ ++ '/' :: n)) _ _ h₂
      (Or.inr (by rw [hcand₂]; simp))
    have hsrc := walkNames_keeps k templatesDir mid _ _ _ hsrc₁ (Or.inr (by rw [hcand₂]; simp))
    have hdst₂ := walkNames_keeps k templatesDir mid _ _ _ hfs₁ (Or.inr (by rw [hdst.2]; simp))
    rw [stepName_present k templatesDir _ _ _ hsrc]
    unfold walkOne
    rcases stat_of_present k _ _ _ hsrc with h | h
    · rw [h]
      simp only
      rw [walkFn_skip_existing k templatesDir _ _ (.file b₁) hcand₂ (by rw [hb₂]; exact hdst₂)]
    · rw [h]
      rfl
  · rw [walkNames_step, hstep]
    simp only
    apply walkNames_keeps
    · simp [FileSystem.set]
    · exact Or.inr (by rw [hdst.2]; simp)

/-- C4 on two logos of the same name in `tasks/a` and `tasks/b`: one file
`templates/logo.png`, with the bytes of the one in `tasks/a`. -/
theorem flattening_first_wins_witness :
    SimpleName "logo.png".toList ∧ "tasks/a".toList ≠ "tasks/b".toList ∧
    fsTwoLogos "tasks/a/logo.png" = some (.file [1, 2, 3]) ∧
    fsTwoLogos "tasks/b/logo.png" = some (.file [4, 5]) ∧
    classify "tasks/a/logo.png" = .Candidate ∧
    fsTwoLogos (Join "templates" "logo.png") = none ∧
    (walkNames noFaults (walkFn noFaults "templates")
      ("tasks/a/logo.png" :: (["tasks/b"] ++ "tasks/b/logo.png" :: []))
      ⟨fsTwoLogos, [], 0, 0⟩).1.fs "templates/logo.png" = some (.file [1, 2, 3]) :=
  have hs : SimpleName "logo.png".toList := ⟨by decide, by decide, by decide, by decide⟩
  have h := flattening_first_wins noFaults "templates" ⟨fsTwoLogos, [], 0, 0⟩
    "tasks/a".toList "tasks/b".toList "logo.png".toList ["tasks/b"] [] [1, 2, 3] [4, 5]
    hs (by decide) (by decide) (by decide) (by decide) (by decide) rfl rfl rfl rfl rfl rfl
  ⟨hs, by decide, by decide, by decide, by decide, by decide, h.2.2.2.2.2.2⟩

/-- C4 refuted as stated: two Candidates `logo.png` in `tasks/a` and `tasks/b`,
nothing of that name in the target; the one in `tasks/a` cannot be opened, so
the one in `tasks/b`, processed second, is the one copied and counted, and the
destination holds its bytes. -/
theorem second_copied_when_first_fails :
    classify "tasks/a/logo.png" = .Candidate ∧ classify "tasks/b/logo.png" = .Candidate ∧
    fsTwoLogos "tasks/a/logo.png" = some (.file [1, 2, 3]) ∧
    fsTwoLogos "tasks/b/logo.png" = some (.file [4, 5]) ∧
    fsTwoLogos "templates/logo.png" = none ∧
    (main kNoOpenA ["tasks/a", "tasks/a/logo.png", "tasks/b", "tasks/b/logo.png"]
      "tasks" "templates" fsTwoLogos).out =
      [.failedCopy "tasks/a/logo.png" "templates/logo.png" .EACCES,
        .copied "tasks/b/logo.png" "templates/logo.png", .completed 0 1, .pressEnter] ∧
    (main kNoOpenA ["tasks/a", "tasks/a/logo.png", "tasks/b", "tasks/b/logo.png"]
      "tasks" "templates" fsTwoLogos).fs "templates/logo.png" = some (.file [4, 5]) := by
  decide

/-! ## C6: the counters of a run without failure -/

theorem stepName_noFaults (tgt : String) (s : Run) (p : String) :
    stepName noFaults tgt s p =
      match s.fs p with
      | some (.file b) =>
        match classify p with
        | .Ignored => (s, none)
        | .Ephemeral =>
          ({ s with fs := s.fs.set p none, out := s.out ++ [.deleted p],
                    deletedCount := s.deletedCount + 1 }, none)
        | .Candidate =>
          match s.fs (Join tgt (Base p)) with
          | none =>
            ({ s with fs := s.fs.set (Join tgt (Base p)) (some (.file b)),
                      out := s.out ++ [.copied p (Join tgt (Base p))],
                      copiedCount := s.copiedCount + 1 }, none)
          | some _ => (s, none)
      | _ => (s, none) := by
  unfold stepName
  cases hp : s.fs p with
  | none => rfl
  | some n =>
    cases n with
    | dir => simp [walkOne, os.Stat, noFaults, hp, walkFn_dir]
    | file b =>
      simp only
      rw [walkOne_file noFaults _ s p b hp rfl]
      cases hc : classify p with
      | Ignored => exact walkFn_ignored _ _ _ _ _ hc
      | Ephemeral =>
        rw [walkFn_ephemeral _ _ _ _ hc]
        simp [os.Remove, noFaults, hp]
      | Candidate =>
        rw [walkFn_candidate _ _ _ _ hc]
        cases hd : s.fs (Join tgt (Base p)) with
        | some m => simp [os.Stat, noFaults, hd]
        | none =>
          have h1 : os.Stat noFaults s.fs (Join tgt (Base p)) = .error .ENOENT := by
            simp [os.Stat, noFaults, hd]
          rw [h1]
          simp only [os.IsNotExist, decide_True, if_true]
          rw [copyFile_ok noFaults s.fs p _ b hp hd rfl rfl rfl rfl]

/-- A path that is absent and is not a Candidate stays absent: the walk creates
only destinations, and those are Candidates. -/
theorem stepName_stays_absent (k : Faults) (tgt : String) (s : Run) (p q : String)
    (hq : s.fs q = none) (hc : classify q ≠ .Candidate) :
    (stepName k tgt s p).1.fs q = none := by
  rcases stepName_effect k tgt s p with ⟨h, -⟩ | ⟨-, -, h, -⟩ | ⟨-, hcp, -, ⟨c, h⟩, -⟩
  · rw [h, hq]
  · rw [h]
    by_cases e : q = p <;> simp [FileSystem.set, e, hq]
  · rw [h]
    have hne : q ≠ Join tgt (Base p) := by
      rintro rfl
      exact hc (classify_destination tgt p hcp).2
    simp [FileSystem.set, hne, hq]

theorem walkNames_stays_absent (k : Faults) (tgt : String) (names : List String) (s : Run)
    (q : String) (hq : s.fs q = none) (hc : classify q ≠ .Candidate) :
    (walkNames k (walkFn k tgt) names s).1.fs q = none := by
  induction names generalizing s with
  | nil => exact hq
  | cons p ps ih =>
    rw [walkNames_step]
    have h1 := stepName_stays_absent k tgt s p q hq hc
    rcases hs : stepName k tgt s p with ⟨s₁, _ | e⟩
    · rw [hs] at h1
      exact ih s₁ h1
    · rw [hs] at h1
      exact h1

theorem mem_newSet (fs : FileSystem) (tgt : String) (names : List String) (n : String) :
    n ∈ newSet fs tgt names ↔
      (∃ q ∈ names, isCandidateFile fs q = true ∧ Base q = n) ∧ fs (Join tgt n) = none := by
  simp [newSet, and_assoc]

theorem newNames_length (fs : FileSystem) (tgt : String) (names : List String) :
    (newNames fs tgt names).length = (newSet fs tgt names).card := by
  unfold newNames candidateNames newSet
  rw [← List.toFinset_card_of_nodup ((List.nodup_dedup _).filter _)]
  congr 1
  ext n
  simp

theorem isCandidateFile_iff (fs : FileSystem) (q : String) :
    isCandidateFile fs q = true ↔ (∃ b, fs q = some (.file b)) ∧ classify q = .Candidate := by
  unfold isCandidateFile
  cases hq : fs q with
  | none => simp
  | some m =>
    cases m with
    | dir => simp
    | file b => simp

theorem isEphemeralFile_iff (fs : FileSystem) (q : String) :
    isEphemeralFile fs q = true ↔ (∃ b, fs q = some (.file b)) ∧ classify q = .Ephemeral := by
  unfold isEphemeralFile
  cases hq : fs q with
  | none => simp
  | some m =>
    cases m with
    | dir => simp
    | file b => simp

/-- Two Candidates with different base names have different destinations. -/
theorem destination_inj (tgt p q : String) (hp : classify p = .Candidate)
    (hq : classify q = .Candidate) (h : Join tgt (Base p) = Join tgt (Base q)) :
    Base p = Base q := by
  have h1 := (png_base p ((classify_candidate_iff p).1 hp).1).1
  have h2 := (png_base q ((classify_candidate_iff q).1 hq).1).1
  have := join_inj tgt _ _ h1 h2 h
  have e : ∀ x : String, x = String.mk x.toList := fun x => rfl
  rw [e (Base p), e (Base q), this]

theorem newSet_skip (fs : FileSystem) (tgt : String) (p : String) (rest : List String)
    (h : ¬ (isCandidateFile fs p = true ∧ fs (Join tgt (Base p)) = none)) :
    newSet fs tgt (p :: rest) = newSet fs tgt rest := by
  ext n
  rw [mem_newSet, mem_newSet]
  constructor
  · rintro ⟨⟨q, hq, hc, hb⟩, hn⟩
    rcases List.mem_cons.1 hq with rfl | hq
    · exact absurd ⟨hc, by rw [hb]; exact hn⟩ h
    · exact ⟨⟨q, hq, hc, hb⟩, hn⟩
  · rintro ⟨⟨q, hq, hc, hb⟩, hn⟩
    exact ⟨⟨q, List.mem_cons_of_mem _ hq, hc, hb⟩, hn⟩

theorem newSet_after_remove (fs : FileSystem) (tgt : String) (p : String) (rest : List String)
    (hp : isEphemeralFile fs p = true) :
    newSet (fs.set p none) tgt rest = newSet fs tgt (p :: rest) := by
  have hpe := ((isEphemeralFile_iff fs p).1 hp).2
  ext n
  rw [mem_newSet, mem_newSet]
  constructor
  · rintro ⟨⟨q, hq, hc, hb⟩, hn⟩
    obtain ⟨⟨b, hqb⟩, hcq⟩ := (isCandidateFile_iff _ q).1 hc
    have hqp : q ≠ p := by
      rintro rfl
      simp [FileSystem.set] at hqb
    refine ⟨⟨q, List.mem_cons_of_mem _ hq, ?_, hb⟩, ?_⟩
    · rw [isCandidateFile_iff]
      refine ⟨⟨b, ?_⟩, hcq⟩
      simpa [FileSystem.set, hqp] using hqb
    · have hne : Join tgt n ≠ p := by
        intro e
        have := (classify_destination tgt q hcq).2
        rw [hb, e, hpe] at this
        cases this
      simpa [FileSystem.set, hne] using hn
  · rintro ⟨⟨q, hq, hc, hb⟩, hn⟩
    obtain ⟨⟨b, hqb⟩, hcq⟩ := (isCandidateFile_iff _ q).1 hc
    have hqp : q ≠ p := by
      rintro rfl
      rw [hpe] at hcq
      cases hcq
    rcases List.mem_cons.1 hq with rfl | hq
    · exact absurd rfl hqp
    · refine ⟨⟨q, hq, ?_, hb⟩, ?_⟩
      · rw [isCandidateFile_iff]
        exact ⟨⟨b, by simp [FileSystem.set, hqp, hqb]⟩, hcq⟩
      · by_cases e : Join tgt n = p <;> simp [FileSystem.set, e, hn]

theorem newSet_after_copy (fs : FileSystem) (tgt : String) (p : String) (rest : List String)
    (c : List Nat) (hp : isCandidateFile fs p = true) (hd : fs (Join tgt (Base p)) = none) :
    newSet fs tgt (p :: rest) =
        insert (Base p) (newSet (fs.set (Join tgt (Base p)) (some (.file c))) tgt rest) ∧
      Base p ∉ newSet (fs.set (Join tgt (Base p)) (some (.file c))) tgt rest := by
  obtain ⟨⟨b, hpb⟩, hpc⟩ := (isCandidateFile_iff _ p).1 hp
  have hdst := classify_destination tgt p hpc
  constructor
  · ext n
    rw [Finset.mem_insert, mem_newSet, mem_newSet]
    constructor
    · rintro ⟨⟨q, hq, hc, hb⟩, hn⟩
      by_cases e : n = Base p
      · exact Or.inl e
      · right
        obtain ⟨⟨b', hqb⟩, hcq⟩ := (isCandidateFile_iff _ q).1 hc
        have hqp : q ≠ p := by
          rintro rfl
          exact e hb.symm
        have hq' : q ∈ rest := by
          rcases List.mem_cons.1 hq with h | h
          · exact absurd h hqp
          · exact h
        have hqd : q ≠ Join tgt (Base p) := by
          rintro rfl
          rw [hd] at hqb
          cases hqb
        have hnd : Join tgt n ≠ Join tgt (Base p) := by
          intro e2
          rw [← hb] at e2
          have := destination_inj tgt q p hcq hpc e2
          exact e (hb.symm.trans this)
        refine ⟨⟨q, hq', ?_, hb⟩, ?_⟩
        · rw [isCandidateFile_iff]
          exact ⟨⟨b', by simp [FileSystem.set, hqd, hqb]⟩, hcq⟩
        · simp [FileSystem.set, hnd, hn]
    · rintro (rfl | ⟨⟨q, hq, hc, hb⟩, hn⟩)
      · exact ⟨⟨p, List.mem_cons_self _ _, hp, rfl⟩, hd⟩
      · obtain ⟨⟨b', hqb⟩, hcq⟩ := (isCandidateFile_iff _ q).1 hc
        have hnd : Join tgt n ≠ Join tgt (Base p) := by
          intro e2
          simp [FileSystem.set, e2] at hn
        have hqd : q ≠ Join tgt (Base p) := by
          intro e2
          apply hnd
          rw [← hb, e2, hdst.1]
        refine ⟨⟨q, List.mem_cons_of_mem _ hq, ?_, hb⟩, ?_⟩
        · rw [isCandidateFile_iff]
          refine ⟨⟨b', ?_⟩, hcq⟩
          simpa [FileSystem.set, hqd] using hqb
        · simpa [FileSystem.set, hnd] using hn
  · rw [mem_newSet]
    rintro ⟨-, hn⟩
    simp [FileSystem.set] at hn

theorem ephemeralFiles_congr (fs fs' : FileSystem) (names : List String)
    (h : ∀ q ∈ names, isEphemeralFile fs' q = isEphemeralFile fs q) :
    ephemeralFiles fs' names = ephemeralFiles fs names := by
  unfold ephemeralFiles
  exact List.filter_congr h

theorem isEphemeralFile_set_other (fs : FileSystem) (p q : String) (v : Option Node)
    (h : q ≠ p) : isEphemeralFile (fs.set p v) q = isEphemeralFile fs q := by
  simp [isEphemeralFile, FileSystem.set, h]

theorem isEphemeralFile_of_candidate (fs : FileSystem) (q : String)
    (h : classify q = .Candidate) : isEphemeralFile fs q = false := by
  unfold isEphemeralFile
  split <;> simp [h]

/-- The walk without failures: it never ends early, deletes every Ephemeral
file among the names, and copies one file for each new Candidate name. -/
theorem walkNames_noFaults (tgt : String) (names : List String) (s : Run)
    (hnd : names.Nodup) :
    (walkNames noFaults (walkFn noFaults tgt) names s).2 = none ∧
    (walkNames noFaults (walkFn noFaults tgt) names s).1.deletedCount =
      s.deletedCount + (ephemeralFiles s.fs names).length ∧
    (walkNames noFaults (walkFn noFaults tgt) names s).1.copiedCount =
      s.copiedCount + (newSet s.fs tgt names).card ∧
    (∀ p ∈ names, isEphemeralFile s.fs p = true →
      (walkNames noFaults (walkFn noFaults tgt) names s).1.fs p = none) ∧
    (∀ n ∈ newSet s.fs tgt names, ∃ p b, p ∈ names ∧ s.fs p = some (.file b) ∧
      classify p = .Candidate ∧ Base p = n ∧
      (walkNames noFaults (walkFn noFaults tgt) names s).1.fs (Join tgt n) = some (.file b)) := by
  induction names generalizing s with
  | nil =>
    refine ⟨rfl, ?_, ?_, ?_, ?_⟩
    · simp [walkNames, ephemeralFiles]
    · simp [walkNames, newSet]
    · intro p hp; cases hp
    · intro n hn; simp [newSet] at hn
  | cons p rest ih =>
    have hprest : p ∉ rest := (List.nodup_cons.1 hnd).1
    have hrest : rest.Nodup := (List.nodup_cons.1 hnd).2
    rw [walkNames_step, stepName_noFaults]
    -- the three kinds of step
    have unchanged : (¬ isEphemeralFile s.fs p = true) →
        (¬ (isCandidateFile s.fs p = true ∧ s.fs (Join tgt (Base p)) = none)) →
        (walkNames noFaults (walkFn noFaults tgt) rest s).2 = none ∧
        (walkNames noFaults (walkFn noFaults tgt) rest s).1.deletedCount =
          s.deletedCount + (ephemeralFiles s.fs (p :: rest)).length ∧
        (walkNames noFaults (walkFn noFaults tgt) rest s).1.copiedCount =
          s.copiedCount + (newSet s.fs tgt (p :: rest)).card ∧
        (∀ q ∈ p :: rest, isEphemeralFile s.fs q = true →
          (walkNames noFaults (walkFn noFaults tgt) rest s).1.fs q = none) ∧
        (∀ n ∈ newSet s.fs tgt (p :: rest), ∃ q b, q ∈ p :: rest ∧ s.fs q = some (.file b) ∧
          classify q = .Candidate ∧ Base q = n ∧
          (walkNames noFaults (walkFn noFaults tgt) rest s).1.fs (Join tgt n) =
            some (.file b)) := by
      intro he hc
      obtain ⟨i1, i2, i3, i4, i5⟩ := ih s hrest
      have e1 : ephemeralFiles s.fs (p :: rest) = ephemeralFiles s.fs rest := by
        simp [ephemeralFiles, List.filter_cons, he]
      rw [e1, newSet_skip s.fs tgt p rest hc]
      refine ⟨i1, i2, i3, ?_, ?_⟩
      · intro q hq hqe
        rcases List.mem_cons.1 hq with rfl | hq
        · exact absurd hqe he
        · exact i4 q hq hqe
      · intro n hn
        obtain ⟨q, b, hq, h⟩ := i5 n hn
        exact ⟨q, b, List.mem_cons_of_mem _ hq, h⟩
    cases hp : s.fs p with
    | none =>
      simp only
      exact unchanged (by simp [isEphemeralFile, hp]) (by simp [isCandidateFile, hp])
    | some m =>
      cases m with
      | dir =>
        simp only
        exact unchanged (by simp [isEphemeralFile, hp]) (by simp [isCandidateFile, hp])
      | file b =>
        simp only
        cases hc : classify p with
        | Ignored =>
          simp only
          exact unchanged (by simp [isEphemeralFile, hp, hc]) (by simp [isCandidateFile, hp, hc])
        | Ephemeral =>
          simp only
          have hpe : isEphemeralFile s.fs p = true := by simp [isEphemeralFile, hp, hc]
          obtain ⟨i1, i2, i3, i4, i5⟩ := ih ⟨s.fs.set p none, s.out ++ [.deleted p],
            s.deletedCount + 1, s.copiedCount⟩ hrest
          have e1 : ephemeralFiles (s.fs.set p none) rest = ephemeralFiles s.fs rest := by
            apply ephemeralFiles_congr
            intro q hq
            have hqp : q ≠ p := by
              intro e
              rw [e] at hq
              exact hprest hq
            exact isEphemeralFile_set_other _ _ _ _ hqp
          have e2 : ephemeralFiles s.fs (p :: rest) = p :: ephemeralFiles s.fs rest := by
            simp [ephemeralFiles, List.filter_cons, hpe]
          simp only at i2 i3 i4 i5
          rw [e1] at i2
          rw [newSet_after_remove s.fs tgt p rest hpe] at i3 i5
          refine ⟨i1, ?_, i3, ?_, ?_⟩
          · rw [i2, e2, List.length_cons]; omega
          · intro q hq hqe
            rcases List.mem_cons.1 hq with rfl | hq
            · apply walkNames_stays_absent
              · simp [FileSystem.set]
              · rw [hc]; simp
            · have hqp : q ≠ p := by
                intro e
                rw [e] at hq
                exact hprest hq
              apply i4 q hq
              rw [isEphemeralFile_set_other _ _ _ _ hqp]
              exact hqe
          · intro n hn
            obtain ⟨q, b', hq, hqb, hqc, hqn, hfin⟩ := i5 n hn
            refine ⟨q, b', List.mem_cons_of_mem _ hq, ?_, hqc, hqn, hfin⟩
            have hqp : q ≠ p := by
              intro e
              rw [e] at hq
              exact hprest hq
            simpa [FileSystem.set, hqp] using hqb
        | Candidate =>
          simp only
          have hpc : isCandidateFile s.fs p = true := by simp [isCandidateFile, hp, hc]
          cases hd : s.fs (Join tgt (Base p)) with
          | some m =>
            simp only
            exact unchanged (by simp [isEphemeralFile, hp, hc]) (by simp [hd])
          | none =>
            simp only
            have hdst := classify_destination tgt p hc
            obtain ⟨i1, i2, i3, i4, i5⟩ := ih ⟨s.fs.set (Join tgt (Base p)) (some (.file b)),
              s.out ++ [.copied p (Join tgt (Base p))], s.deletedCount, s.copiedCount + 1⟩ hrest
            simp only at i2 i3 i4 i5
            obtain ⟨hins, hnot⟩ := newSet_after_copy s.fs tgt p rest b hpc hd
            have e1 : ephemeralFiles (s.fs.set (Join tgt (Base p)) (some (.file b))) rest =
                ephemeralFiles s.fs rest := by
              apply ephemeralFiles_congr
              intro q _
              by_cases e : q = Join tgt (Base p)
              · rw [isEphemeralFile_of_candidate _ q (e ▸ hdst.2),
                  isEphemeralFile_of_candidate _ q (e ▸ hdst.2)]
              · exact isEphemeralFile_set_other _ _ _ _ e
            have e2 : ephemeralFiles s.fs (p :: rest) = ephemeralFiles s.fs rest := by
              simp [ephemeralFiles, List.filter_cons, isEphemeralFile_of_candidate _ p hc]
            rw [e1] at i2
            refine ⟨i1, by rw [i2, e2], ?_, ?_, ?_⟩
            · rw [i3, hins, Finset.card_insert_of_not_mem hnot]; omega
            · intro q hq hqe
              rcases List.mem_cons.1 hq with rfl | hq
              · rw [isEphemeralFile_of_candidate _ q hc] at hqe; cases hqe
              · apply i4 q hq
                have hqd : q ≠ Join tgt (Base p) := by
                  rintro rfl
                  rw [isEphemeralFile_of_candidate _ _ hdst.2] at hqe; cases hqe
                rw [isEphemeralFile_set_other _ _ _ _ hqd]
                exact hqe
            · intro n hn
              rw [hins, Finset.mem_insert] at hn
              by_cases e : n = Base p
              · subst e
                refine ⟨p, b, List.mem_cons_self _ _, hp, hc, rfl, ?_⟩
                apply walkNames_keeps
                · simp [FileSystem.set]
                · right; rw [hdst.2]; simp
              · rcases hn with hn | hn
                · exact absurd hn e
                · obtain ⟨q, b', hq, hqb, hqc, hqn, hfin⟩ := i5 n hn
                  refine ⟨q, b', List.mem_cons_of_mem _ hq, ?_, hqc, hqn, hfin⟩
                  have hqd : q ≠ Join tgt (Base p) := by
                    rintro rfl
                    exact e (hqn.symm.trans hdst.1)
                  simpa [FileSystem.set, hqd] using hqb

theorem mem_newNames (fs : FileSystem) (tgt : String) (names : List String) (n : String) :
    n ∈ newNames fs tgt names ↔ n ∈ newSet fs tgt names := by
  simp [newNames, candidateNames, newSet]

theorem ensureDir_of_dir (k : Faults) (fs : FileSystem) (tgt : String)
    (h : fs tgt = some .dir) : ensureDir k fs tgt = (fs, none) := by
  unfold ensureDir os.Stat
  by_cases hd : k.statDenied tgt = true
  · simp [hd, os.IsNotExist]
  · simp [hd, h]

theorem Walk_of_dir (k : Faults) (names : List String) (root tgt : String) (s : Run)
    (hroot : s.fs root = some .dir) (h1 : k.statDenied root = false)
    (h2 : k.readDirDenied root = false) :
    Walk k names root (walkFn k tgt) s = walkNames k (walkFn k tgt) names s := by
  unfold Walk
  simp [os.Stat, h1, h2, hroot, walkFn_dir]

/-- C6 (the counters of a run without failure). The source root and the target
are directories, `names` lists the paths below the root without repetition, and
no call fails. Then `deletedCount` ends as the number of Ephemeral files among
the names and each of them is gone; `copiedCount` ends as the number of
distinct Candidate file names that had no entry in the target at the start, and
for each such name the target now holds a file with all the bytes of a
Candidate of that name; the totals line shows these two counters. -/
theorem counts_without_failure (names : List String) (tasksDir templatesDir : String)
    (fs : FileSystem) (hnd : names.Nodup) (hroot : fs tasksDir = some .dir)
    (htgt : fs templatesDir = some .dir) :
    (main noFaults names tasksDir templatesDir fs).deletedCount =
      (ephemeralFiles fs names).length ∧
    (∀ p ∈ ephemeralFiles fs names, (main noFaults names tasksDir templatesDir fs).fs p = none) ∧
    (main noFaults names tasksDir templatesDir fs).copiedCount =
      (newNames fs templatesDir names).length ∧
    (∀ n ∈ newNames fs templatesDir names, ∃ p b, p ∈ names ∧ fs p = some (.file b) ∧
      classify p = .Candidate ∧ Base p = n ∧
      (main noFaults names tasksDir templatesDir fs).fs (Join templatesDir n) =
        some (.file b)) ∧
    totals (main noFaults names tasksDir templatesDir fs).out =
      [((ephemeralFiles fs names).length, (newNames fs templatesDir names).length)] := by
  obtain ⟨i1, i2, i3, i4, i5⟩ := walkNames_noFaults templatesDir names ⟨fs, [], 0, 0⟩ hnd
  have ht := walkNames_totals noFaults templatesDir names ⟨fs, [], 0, 0⟩
  have hm : main noFaults names tasksDir templatesDir fs =
      { (walkNames noFaults (walkFn noFaults templatesDir) names ⟨fs, [], 0, 0⟩).1 with
        out := waitForKeypress
          ((walkNames noFaults (walkFn noFaults templatesDir) names ⟨fs, [], 0, 0⟩).1.out ++
            [.completed
              (walkNames noFaults (walkFn noFaults templatesDir) names
                ⟨fs, [], 0, 0⟩).1.deletedCount
              (walkNames noFaults (walkFn noFaults templatesDir) names
                ⟨fs, [], 0, 0⟩).1.copiedCount]) } := by
    unfold main
    rw [ensureDir_of_dir noFaults fs templatesDir htgt]
    simp only
    rw [Walk_of_dir noFaults names tasksDir templatesDir ⟨fs, [], 0, 0⟩ hroot rfl rfl]
    rcases hw : walkNames noFaults (walkFn noFaults templatesDir) names ⟨fs, [], 0, 0⟩ with
      ⟨t, _ | e⟩
    · rfl
    · rw [hw] at i1
      cases i1
  simp only [Nat.zero_add] at i2 i3
  rw [hm]
  simp only
  refine ⟨i2, ?_, ?_, ?_, ?_⟩
  · intro p hp
    have hp' := List.mem_filter.1 hp
    exact i4 p hp'.1 hp'.2
  · rw [i3, newNames_length]
  · intro n hn
    exact i5 n ((mem_newNames _ _ _ _).1 hn)
  · rw [waitForKeypress, totals_append, totals_append, ht, i2, i3, newNames_length]
    simp [totals]

/-- C6 on the scenario of the specification: `a/tpl1234567890123.png` and
`a/logo.png` with an empty target give `deletedCount = 1`, `copiedCount = 1`,
the preview gone and `templates/logo.png` created with the bytes of the logo. -/
theorem counts_without_failure_witness :
    namesSpec.Nodup ∧ fsSpec "tasks" = some .dir ∧ fsSpec "templates" = some .dir ∧
    (main noFaults namesSpec "tasks" "templates" fsSpec).deletedCount = 1 ∧
    (main noFaults namesSpec "tasks" "templates" fsSpec).copiedCount = 1 ∧
    (main noFaults namesSpec "tasks" "templates" fsSpec).fs "tasks/a/tpl1234567890123.png" =
      none ∧
    (main noFaults namesSpec "tasks" "templates" fsSpec).fs "templates/logo.png" =
      some (.file [1, 2, 3]) :=
  have h := counts_without_failure namesSpec "tasks" "templates" fsSpec (by decide) (by decide)
    (by decide)
  ⟨by decide, by decide, by decide, h.1.trans (by decide), h.2.2.1.trans (by decide),
    h.2.1 "tasks/a/tpl1234567890123.png" (by decide), by decide⟩

/-! ## C5: a second run after a bootstrap that ensured nothing -/

/-- C5 at an input where the code breaks it: `-src tasks -tgt
tasks/tpl1234567890123.png/sub`, the preview being a regular file. There is no
target directory, and `os.Stat` fails with `ENOTDIR`, which is not "not exist",
so `ensureDir` returns no error and makes nothing (the defect of C9). The first
run deletes the preview and fails to copy `tasks/zz.png`, the parent of its
destination being missing: one deletion, no copy. In the file system it leaves,
nothing else being changed, the second run finds the target path free, makes
the directories and copies `tasks/zz.png`: it ends with `copiedCount` one, not
zero. -/
theorem second_run_copies_below_preview :
    fsBelowPreview "tasks/tpl1234567890123.png/sub" = none ∧
    os.Stat resolution fsBelowPreview "tasks/tpl1234567890123.png/sub" = .error .ENOTDIR ∧
    (ensureDir resolution fsBelowPreview "tasks/tpl1234567890123.png/sub").2 = none ∧
    (ensureDir resolution fsBelowPreview "tasks/tpl1234567890123.png/sub").1
      "tasks/tpl1234567890123.png/sub" = none ∧
    (main resolution namesBelowPreview "tasks" "tasks/tpl1234567890123.png/sub"
      fsBelowPreview).out =
      [.deleted "tasks/tpl1234567890123.png",
        .failedCopy "tasks/zz.png" "tasks/tpl1234567890123.png/sub/zz.png" .ENOENT,
        .completed 1 0, .pressEnter] ∧
    (main resolution namesBelowPreview "tasks" "tasks/tpl1234567890123.png/sub"
      fsBelowPreview).fs "tasks/zz.png" = some (.file [1, 2]) ∧
    (main resolution namesBelowPreview "tasks" "tasks/tpl1234567890123.png/sub"
      (main resolution namesBelowPreview "tasks" "tasks/tpl1234567890123.png/sub"
        fsBelowPreview).fs).out =
      [.copied "tasks/zz.png" "tasks/tpl1234567890123.png/sub/zz.png",
        .completed 0 1, .pressEnter] ∧
    (main resolution namesBelowPreview "tasks" "tasks/tpl1234567890123.png/sub"
      (main resolution namesBelowPreview "tasks" "tasks/tpl1234567890123.png/sub"
        fsBelowPreview).fs).copiedCount = 1 ∧
    (main resolution namesBelowPreview "tasks" "tasks/tpl1234567890123.png/sub"
      (main resolution namesBelowPreview "tasks" "tasks/tpl1234567890123.png/sub"
        fsBelowPreview).fs).fs "tasks/tpl1234567890123.png/sub/zz.png" = some (.file [1, 2]) :=
  ⟨by decide, rfl, by decide, by decide, by decide, by decide, by decide, by decide, by decide⟩

end CopyTemplate
